import Mathlib

set_option maxHeartbeats 1000000

/-!
Shallow embedding of the mdtoolkit Markdown structural extraction engine:
the fenced-code-block scanner (`extract_code_blocks`, src/mdtoolkit/extractor.py)
and the pipe-table scanner (`extract_tables`, src/mdtoolkit/tables.py).
Text is modelled as `List Char`.
-/

/-- The characters stripped by Python `str.strip()` with no argument, which
are exactly the characters satisfying `str.isspace()` (and also exactly the
characters matched by the regex class of whitespace on `str` patterns): the
ASCII whitespace (tab, newline, vertical tab, form feed, carriage return,
space), the separators U+001C-U+001F, next line U+0085, no-break space
U+00A0, ogham space U+1680, the typographic spaces U+2000-U+200A, the line
and paragraph separators U+2028/U+2029, narrow no-break space U+202F, medium
mathematical space U+205F, and ideographic space U+3000. -/
def isPyWS (c : Char) : Bool :=
  c == '\t' || c == '\n' || c == Char.ofNat 11 || c == Char.ofNat 12 || c == '\r' ||
  c == Char.ofNat 28 || c == Char.ofNat 29 || c == Char.ofNat 30 || c == Char.ofNat 31 ||
  c == ' ' || c == Char.ofNat 133 || c == Char.ofNat 160 || c == Char.ofNat 0x1680 ||
  c == Char.ofNat 0x2000 || c == Char.ofNat 0x2001 || c == Char.ofNat 0x2002 ||
  c == Char.ofNat 0x2003 || c == Char.ofNat 0x2004 || c == Char.ofNat 0x2005 ||
  c == Char.ofNat 0x2006 || c == Char.ofNat 0x2007 || c == Char.ofNat 0x2008 ||
  c == Char.ofNat 0x2009 || c == Char.ofNat 0x200a || c == Char.ofNat 0x2028 ||
  c == Char.ofNat 0x2029 || c == Char.ofNat 0x202f || c == Char.ofNat 0x205f ||
  c == Char.ofNat 0x3000

/-- Python `s.strip(chars)`: remove characters satisfying `p` from both ends. -/
def stripBy (p : Char → Bool) (s : List Char) : List Char :=
  ((s.dropWhile p).reverse.dropWhile p).reverse

/-- Python `s.strip()` (no argument): strip whitespace from both ends. -/
def stripPy (s : List Char) : List Char := stripBy isPyWS s

/-- Characters allowed in the fence language tag, the charset `[a-zA-Z0-9_+#.-]`
of the regex in `extract_code_blocks`. -/
def isIdentChar (c : Char) : Bool :=
  c.isAlpha || c.isDigit || c == '_' || c == '+' || c == '#' || c == '.' || c == '-'

/-- The three-backtick delimiter. -/
def tick3 : List Char := ['`', '`', '`']

/-- Whether the text begins with a triple backtick. -/
def startsTriple (l : List Char) : Bool := l.take 3 == tick3

/-- Whether a triple backtick occurs anywhere in the text. -/
def containsTriple : List Char → Bool
  | [] => false
  | c :: rest => startsTriple (c :: rest) || containsTriple rest

/-- The non-greedy `(.*?)` followed by the closing delimiter of the fence regex:
finds the leftmost triple backtick, returning the text before it (the captured
body) and the text after the closer.  `none` when no closer exists. -/
def findBody : List Char → Option (List Char × List Char)
  | [] => none
  | c :: rest =>
    if startsTriple (c :: rest) then some ([], rest.drop 2)
    else
      match findBody rest with
      | some (b, r) => some (c :: b, r)
      | none => none

/-- One attempted match of the fence regex
    ```` ```[ \t]*([a-zA-Z0-9_+#.-]*)(?::([^\n]+))?\n(.*?)``` ````
(with DOTALL) anchored at the start of `cs`, following Python backtracking
semantics.  Returns the raw captures (group 1, optional group 2, group 3)
and the remaining text after the whole match. -/
def matchFenceAt (cs : List Char) :
    Option (List Char × Option (List Char) × List Char × List Char) :=
  if startsTriple cs then
    match ((cs.drop 3).dropWhile (fun c => c == ' ' || c == '\t')).dropWhile isIdentChar with
    | ':' :: cs4 =>
      -- optional group `(?::([^\n]+))?` tried greedily first; `[^\n]+` needs a
      -- nonempty hint followed by a real newline, otherwise the whole optional
      -- group fails and the mandatory `\n` cannot match the ':' either.
      match cs4.takeWhile (fun c => !(c == '\n')), cs4.dropWhile (fun c => !(c == '\n')) with
      | [], _ => none
      | h :: hs, '\n' :: cs5 =>
        match findBody cs5 with
        | some (body, rest) =>
          some (((cs.drop 3).dropWhile (fun c => c == ' ' || c == '\t')).takeWhile isIdentChar,
            some (h :: hs), body, rest)
        | none => none
      | _ :: _, _ => none
    | '\n' :: cs4 =>
      match findBody cs4 with
      | some (body, rest) =>
        some (((cs.drop 3).dropWhile (fun c => c == ' ' || c == '\t')).takeWhile isIdentChar,
          none, body, rest)
      | none => none
    | _ => none
  else none

/-- A raw regex match produced while scanning: start offset plus captures. -/
structure RawMatch where
  pos : Nat
  lang : List Char
  hint : Option (List Char)
  body : List Char
  deriving DecidableEq, Repr

theorem dropWhile_length_le {α : Type} (p : α → Bool) :
    ∀ l : List α, (l.dropWhile p).length ≤ l.length
  | [] => Nat.le_refl _
  | c :: rest => by
    rw [List.dropWhile_cons]
    split
    · exact Nat.le_trans (dropWhile_length_le p rest) (Nat.le_succ _)
    · exact Nat.le_refl _

theorem findBody_rest_length :
    ∀ {cs b r : List Char}, findBody cs = some (b, r) → r.length < cs.length
  | [], _, _, h => by simp [findBody] at h
  | c :: rest, b, r, h => by
    simp only [findBody] at h
    split at h
    · have hr : r = rest.drop 2 := by
        injection h with h1
        injection h1 with _ h2
        exact h2.symm
      subst hr
      have := List.length_drop 2 rest
      simp only [List.length_cons]
      omega
    · cases hfb : findBody rest with
      | none => rw [hfb] at h; exact absurd h (by simp)
      | some p =>
        rcases p with ⟨b0, r0⟩
        rw [hfb] at h
        have hr : r = r0 := by
          injection h with h1
          injection h1 with _ h2
          exact h2.symm
        subst hr
        have := findBody_rest_length hfb
        simp only [List.length_cons]
        omega

theorem startsTriple_length {cs : List Char} (h : startsTriple cs = true) : 3 ≤ cs.length := by
  simp only [startsTriple, beq_iff_eq] at h
  have := congrArg List.length h
  simp only [List.length_take, tick3, List.length_cons, List.length_nil] at this
  omega

theorem matchFenceAt_rest_length {cs lang body rest : List Char} {hint : Option (List Char)}
    (hm : matchFenceAt cs = some (lang, hint, body, rest)) : rest.length < cs.length := by
  unfold matchFenceAt at hm
  split at hm
  case isTrue hs =>
    have h3 : 3 ≤ cs.length := startsTriple_length hs
    have h1 : (cs.drop 3).length = cs.length - 3 := List.length_drop 3 cs
    have h2 : ((cs.drop 3).dropWhile (fun c => c == ' ' || c == '\t')).length ≤ (cs.drop 3).length :=
      dropWhile_length_le _ _
    have h4 : (((cs.drop 3).dropWhile (fun c => c == ' ' || c == '\t')).dropWhile isIdentChar).length ≤
        ((cs.drop 3).dropWhile (fun c => c == ' ' || c == '\t')).length :=
      dropWhile_length_le _ _
    split at hm
    case h_1 cs4 heq =>
      have hlen4 : cs4.length + 1 ≤ cs.length - 3 := by
        have := congrArg List.length heq
        simp only [List.length_cons] at this
        omega
      split at hm
      case h_1 => exact absurd hm (by simp)
      case h_2 h hs' cs5 hta hdr =>
        have hlen5 : cs5.length + 1 ≤ cs4.length := by
          have hd := congrArg List.length hdr
          have : (cs4.dropWhile (fun c => !(c == '\n'))).length ≤ cs4.length :=
            dropWhile_length_le _ _
          simp only [List.length_cons] at hd
          omega
        split at hm
        case h_1 body0 rest0 hfb =>
          have hr : rest = rest0 := by
            injection hm with h1
            injection h1 with _ h2
            injection h2 with _ h3
            injection h3 with _ h4
            exact h4.symm
          subst hr
          have := findBody_rest_length hfb
          omega
        case h_2 => exact absurd hm (by simp)
      case h_3 => exact absurd hm (by simp)
    case h_2 cs4 heq =>
      have hlen4 : cs4.length + 1 ≤ cs.length - 3 := by
        have := congrArg List.length heq
        simp only [List.length_cons] at this
        omega
      split at hm
      case h_1 body0 rest0 hfb =>
        have hr : rest = rest0 := by
          injection hm with h1
          injection h1 with _ h2
          injection h2 with _ h3
          injection h3 with _ h4
          exact h4.symm
        subst hr
        have := findBody_rest_length hfb
        omega
      case h_2 => exact absurd hm (by simp)
    case h_3 => exact absurd hm (by simp)
  case isFalse => exact absurd hm (by simp)

/-- `re.finditer` over the fence regex: try a match at every position, left to
right; after a successful match resume scanning at its end.  `pos` is the
absolute offset of the head of `cs` in the document. -/
def findMatchesAux : List Char → Nat → List RawMatch
  | [], _ => []
  | c :: rest, pos =>
    match hm : matchFenceAt (c :: rest) with
    | some (lang, hint, body, after) =>
      ⟨pos, lang, hint, body⟩ ::
        findMatchesAux after (pos + ((c :: rest).length - after.length))
    | none => findMatchesAux rest (pos + 1)
termination_by cs _ => cs.length
decreasing_by
  · exact matchFenceAt_rest_length hm
  · simp

theorem findMatchesAux_nil (pos : Nat) : findMatchesAux [] pos = [] := by
  rw [findMatchesAux]

theorem findMatchesAux_cons (c : Char) (rest : List Char) (pos : Nat) :
    findMatchesAux (c :: rest) pos =
      match matchFenceAt (c :: rest) with
      | some (lang, hint, body, after) =>
        ⟨pos, lang, hint, body⟩ ::
          findMatchesAux after (pos + ((c :: rest).length - after.length))
      | none => findMatchesAux rest (pos + 1) := by
  rw [findMatchesAux]
  split
  case h_1 lang hint body after heq => rw [heq]
  case h_2 heq => rw [heq]

/-- The tail of the char-offset → line-number index: for each newline at
absolute position `j` of the scanned text (`i` is the absolute position of the
head of `cs`), the offset `j + 1` where the next line starts. -/
def lineStartsAux : List Char → Nat → List Nat
  | [], _ => []
  | c :: rest, i =>
    if c == '\n' then (i + 1) :: lineStartsAux rest (i + 1)
    else lineStartsAux rest (i + 1)

/-- `line_starts = [0]` followed by the offset immediately after every `\n`,
exactly as built by the loop in `extract_code_blocks`. -/
def line_starts (md_text : List Char) : List Nat := 0 :: lineStartsAux md_text 0

/-- The `while lo < hi` binary-search loop of `offset_to_line`:
`mid = (lo + hi + 1) // 2`, move `lo` up when `line_starts[mid] <= offset`,
else move `hi` below `mid`. -/
def offsetToLineLoop (ls : List Nat) (offset lo hi : Nat) : Nat :=
  if lo < hi then
    if ls.getD ((lo + hi + 1) / 2) 0 ≤ offset then
      offsetToLineLoop ls offset ((lo + hi + 1) / 2) hi
    else
      offsetToLineLoop ls offset lo ((lo + hi + 1) / 2 - 1)
  else lo
termination_by hi - lo
decreasing_by
  · omega
  · omega

/-- `offset_to_line` from `extract_code_blocks`: binary search over
`line_starts`, returning a 1-based line number. -/
def offset_to_line (ls : List Nat) (offset : Nat) : Nat :=
  offsetToLineLoop ls offset 0 (ls.length - 1) + 1

/-- One extracted fenced code block (the tuple `(lang, hint, code, line_no)`
appended by `extract_code_blocks`, with the spec's field names). -/
structure CodeBlock where
  language : List Char
  filenameHint : List Char
  body : List Char
  lineNumber : Nat
  deriving DecidableEq, Repr

/-- `extract_code_blocks` from src/mdtoolkit/extractor.py: scan for fence
matches, strip the captured language and hint (absent captures become empty),
and resolve the match offset to a 1-based line number. -/
def extract_code_blocks (md_text : List Char) : List CodeBlock :=
  (findMatchesAux md_text 0).map fun m =>
    { language := stripPy m.lang
      filenameHint := match m.hint with | some h => stripPy h | none => []
      body := m.body
      lineNumber := offset_to_line (line_starts md_text) m.pos }

/-- The boundary characters of Python `str.splitlines`: line feed, vertical
tab, form feed, carriage return, the file/group/record separators
U+001C-U+001E, next line U+0085, and the line and paragraph separators
U+2028/U+2029 (`\r\n` counts as a single break). -/
def isLineBreak (c : Char) : Bool :=
  c == '\n' || c == Char.ofNat 11 || c == Char.ofNat 12 || c == '\r' ||
  c == Char.ofNat 28 || c == Char.ofNat 29 || c == Char.ofNat 30 ||
  c == Char.ofNat 133 || c == Char.ofNat 0x2028 || c == Char.ofNat 0x2029

/-- Worker for `splitlines`, accumulating the current line in reverse;
splits on every `isLineBreak` character, treats `\r\n` as a single break,
and a trailing break produces no extra empty final line. -/
def splitlinesGo (acc : List Char) : List Char → List (List Char)
  | [] => [acc.reverse]
  | [c] =>
    if isLineBreak c then [acc.reverse] else [(c :: acc).reverse]
  | c :: c2 :: rest =>
    if c == '\r' && c2 == '\n' then
      acc.reverse :: (if rest.isEmpty then [] else splitlinesGo [] rest)
    else if isLineBreak c then
      acc.reverse :: splitlinesGo [] (c2 :: rest)
    else splitlinesGo (c :: acc) (c2 :: rest)

/-- Python `md_text.splitlines()` on the common breaks. -/
def splitlines : List Char → List (List Char)
  | [] => []
  | c :: cs => splitlinesGo [] (c :: cs)

/-- Candidate table line test of `extract_tables`:
`line.startswith("|") and line.endswith("|")` on the stripped line. -/
def isCand (l : List Char) : Bool :=
  (match l.head? with | some c => c == '|' | none => false) &&
  (match l.getLast? with | some c => c == '|' | none => false)

/-- A character admitted by the separator-row regex character class
`[\s\-|:]` (also covering its `\s*` and `\|?` parts). -/
def isSepChar (c : Char) : Bool := isPyWS c || c == '-' || c == '|' || c == ':'

/-- Whether `re.match(r"^\s*\|?[\s\-|:]+\|?\s*$", r)` succeeds: since every
component of that regex draws from whitespace, '-', '|', ':' and the `+` forces
at least one character, its language is exactly the nonempty strings over that
set. -/
def sepMatch (r : List Char) : Bool := !r.isEmpty && r.all isSepChar

/-- Python `s.split("|")` for a single-character separator: always returns at
least one (possibly empty) piece. -/
def splitOnPipe : List Char → List (List Char)
  | [] => [[]]
  | c :: rest =>
    if c == '|' then [] :: splitOnPipe rest
    else
      match splitOnPipe rest with
      | g :: gs => (c :: g) :: gs
      | [] => [[c]]

/-- One table row: Python `[c.strip() for c in r.strip("|").split("|")]`. -/
def cellsOf (r : List Char) : List (List Char) :=
  (splitOnPipe (stripBy (fun c => c == '|') r)).map stripPy

/-- The inner `while` loop of `extract_tables`: starting at index `i`, collect
the maximal run of consecutive stripped candidate lines and return it together
with the index just past the run. -/
def collectRun (lines : List (List Char)) (i : Nat) : List (List Char) × Nat :=
  if h : i < lines.length then
    if isCand (stripPy lines[i]) then
      ((stripPy lines[i]) :: (collectRun lines (i + 1)).1, (collectRun lines (i + 1)).2)
    else ([], i)
  else ([], i)
termination_by lines.length - i

theorem collectRun_eq (lines : List (List Char)) (i : Nat) :
    collectRun lines i =
      (((lines.drop i).map stripPy).takeWhile isCand,
        i + (((lines.drop i).map stripPy).takeWhile isCand).length) := by
  unfold collectRun
  split
  case isTrue h =>
    have hdrop : lines.drop i = lines[i] :: lines.drop (i + 1) :=
      List.drop_eq_getElem_cons h
    rw [hdrop]
    simp only [List.map_cons]
    split
    case isTrue hc =>
      rw [collectRun_eq lines (i + 1)]
      rw [List.takeWhile_cons_of_pos hc]
      simp only [List.length_cons, Prod.mk.injEq, true_and]
      omega
    case isFalse hc =>
      rw [List.takeWhile_cons_of_neg hc]
      simp
  case isFalse h =>
    have : lines.drop i = [] := List.drop_eq_nil_of_le (by omega)
    rw [this]
    simp
termination_by lines.length - i

theorem collectRun_snd_gt (lines : List (List Char)) (i : Nat)
    (h : i < lines.length) (hc : isCand (stripPy lines[i]) = true) :
    i < (collectRun lines i).2 := by
  rw [collectRun_eq]
  have hdrop : lines.drop i = lines[i] :: lines.drop (i + 1) :=
    List.drop_eq_getElem_cons h
  rw [hdrop]
  simp only [List.map_cons, List.takeWhile_cons_of_pos hc, List.length_cons]
  omega

/-- A table cell. -/
abbrev Cell := List Char

/-- A table row: an ordered list of cells. -/
abbrev Row := List Cell

/-- One extracted table: an ordered list of rows. -/
abbrev TableGrid := List Row

/-- The outer `while i < len(lines)` loop of `extract_tables`: find a candidate
line, collect its run, filter out separator rows, split the survivors into
cells, and keep the row list when nonempty. -/
def tablesLoop (lines : List (List Char)) (i : Nat) : List TableGrid :=
  if h : i < lines.length then
    if hc : isCand (stripPy lines[i]) then
      if (((collectRun lines i).1.filter (fun r => !sepMatch r)).map cellsOf).isEmpty then
        tablesLoop lines (collectRun lines i).2
      else
        (((collectRun lines i).1.filter (fun r => !sepMatch r)).map cellsOf) ::
          tablesLoop lines (collectRun lines i).2
    else tablesLoop lines (i + 1)
  else []
termination_by lines.length - i
decreasing_by
  all_goals
    try have := collectRun_snd_gt lines i h hc
  all_goals omega

/-- `extract_tables` from src/mdtoolkit/tables.py. -/
def extract_tables (md_text : List Char) : List TableGrid :=
  tablesLoop (splitlines md_text) 0

/-! ### Generic helpers -/

theorem mem_of_dropWhile_mem {α : Type} (p : α → Bool) :
    ∀ {l : List α} {x : α}, x ∈ l.dropWhile p → x ∈ l
  | [], _, h => by simp [List.dropWhile] at h
  | a :: l, x, h => by
    rw [List.dropWhile_cons] at h
    split at h
    · exact List.mem_cons_of_mem a (mem_of_dropWhile_mem p h)
    · exact h

theorem mem_of_takeWhile_mem {α : Type} (p : α → Bool) :
    ∀ {l : List α} {x : α}, x ∈ l.takeWhile p → x ∈ l
  | [], _, h => by simp [List.takeWhile] at h
  | a :: l, x, h => by
    rw [List.takeWhile_cons] at h
    split at h
    · rcases List.mem_cons.mp h with h | h
      · exact h ▸ List.mem_cons_self a l
      · exact List.mem_cons_of_mem a (mem_of_takeWhile_mem p h)
    · simp at h

theorem dropWhile_of_all_neg {p : Char → Bool} :
    ∀ {l : List Char}, (∀ a ∈ l, p a = false) → l.dropWhile p = l
  | [], _ => rfl
  | c :: l, h => by
    have := h c (List.mem_cons_self c l)
    simp [List.dropWhile_cons, this]

theorem dropWhile_append_cons_neg {p : Char → Bool} {l t : List Char} {b : Char}
    (hl : ∀ a ∈ l, p a = false) (hb : p b = false) :
    (l ++ b :: t).dropWhile p = l ++ b :: t := by
  cases l with
  | nil => simpa using List.dropWhile_cons_of_neg (l := t) (by simp [hb])
  | cons c l' =>
    rw [List.cons_append,
      List.dropWhile_cons_of_neg (by simp [hl c (List.mem_cons_self c l')])]

/-! ### `containsTriple` facts -/

theorem containsTriple_append_right {u v : List Char} (h : containsTriple v = true) :
    containsTriple (u ++ v) = true := by
  induction u with
  | nil => simpa using h
  | cons c u' ih =>
    rw [List.cons_append]
    simp only [containsTriple, Bool.or_eq_true]
    exact Or.inr ih

theorem containsTriple_of_append {u v : List Char} (h : containsTriple (u ++ v) = false) :
    containsTriple v = false := by
  cases hv : containsTriple v with
  | false => rfl
  | true => exact absurd (containsTriple_append_right (u := u) hv) (by simp [h])

theorem containsTriple_dropWhile {p : Char → Bool} {l : List Char}
    (h : containsTriple l = false) : containsTriple (l.dropWhile p) = false := by
  have := List.takeWhile_append_dropWhile (p := p) (l := l)
  exact containsTriple_of_append (u := l.takeWhile p) (by rwa [this])

theorem containsTriple_cons_elim {c : Char} {l : List Char}
    (h : containsTriple (c :: l) = false) :
    startsTriple (c :: l) = false ∧ containsTriple l = false := by
  simp only [containsTriple, Bool.or_eq_false_iff] at h
  exact h

theorem startsTriple_append_take2 {u v : List Char} (hu : u ≠ []) :
    startsTriple (u ++ v) = startsTriple (u ++ v.take 2) := by
  have h1 : 1 ≤ u.length := List.length_pos.mpr hu
  unfold startsTriple
  rw [List.take_append_eq_append_take, List.take_append_eq_append_take,
    List.take_take, min_eq_left (by omega)]

/-! ### `findBody` facts -/

theorem findBody_of_noTriple : ∀ {cs : List Char}, containsTriple cs = false → findBody cs = none
  | [], _ => rfl
  | c :: rest, h => by
    obtain ⟨h1, h2⟩ := containsTriple_cons_elim h
    rw [findBody, if_neg (by simp [h1]), findBody_of_noTriple h2]

theorem findBody_append {S : List Char} :
    ∀ {body : List Char}, containsTriple (body ++ ['`', '`']) = false →
      findBody (body ++ '`' :: '`' :: '`' :: S) = some (body, S)
  | [], _ => by
    rw [List.nil_append, findBody, if_pos (by simp [startsTriple, tick3])]
    rfl
  | c :: body', hb => by
    rw [List.cons_append] at hb
    obtain ⟨h1, h2⟩ := containsTriple_cons_elim hb
    have h1' : startsTriple (c :: (body' ++ '`' :: '`' :: '`' :: S)) = false := by
      have := startsTriple_append_take2 (u := c :: body') (v := '`' :: '`' :: '`' :: S)
        (by simp)
      rw [List.cons_append] at this
      rw [this]
      simpa using h1
    rw [List.cons_append, findBody, if_neg (by simp [h1']), findBody_append h2]

theorem findBody_suffix : ∀ {cs b r : List Char}, findBody cs = some (b, r) → r <:+ cs
  | [], _, _, h => by simp [findBody] at h
  | c :: rest, b, r, h => by
    rw [findBody] at h
    split at h
    · have hr : r = rest.drop 2 := by
        injection h with h1
        injection h1 with _ h2
        exact h2.symm
      subst hr
      exact (List.drop_suffix 2 rest).trans (List.suffix_cons c rest)
    · cases hfb : findBody rest with
      | none => rw [hfb] at h; exact absurd h (by simp)
      | some p =>
        rcases p with ⟨b0, r0⟩
        rw [hfb] at h
        have hr : r = r0 := by
          injection h with h1
          injection h1 with _ h2
          exact h2.symm
        subst hr
        exact (findBody_suffix hfb).trans (List.suffix_cons c rest)

/-! ### Character class facts -/

theorem ident_not_ws {c : Char} (h : isIdentChar c = true) : isPyWS c = false := by
  cases hws : isPyWS c with
  | false => rfl
  | true =>
    simp only [isPyWS, Bool.or_eq_true, beq_iff_eq, or_assoc] at hws
    rcases hws with h1 | h1 | h1 | h1 | h1 | h1 | h1 | h1 | h1 | h1 | h1 | h1 | h1 | h1 |
      h1 | h1 | h1 | h1 | h1 | h1 | h1 | h1 | h1 | h1 | h1 | h1 | h1 | h1 | h1 <;>
      subst h1 <;> exact absurd h (by decide)

theorem ident_not_spacetab {c : Char} (h : isIdentChar c = true) :
    (c == ' ' || c == '\t') = false := by
  cases hst : (c == ' ' || c == '\t') with
  | false => rfl
  | true =>
    simp only [Bool.or_eq_true, beq_iff_eq] at hst
    rcases hst with h1 | h1 <;> subst h1 <;> exact absurd h (by decide)

theorem stripPy_of_all_ident {l : List Char} (h : ∀ c ∈ l, isIdentChar c = true) :
    stripPy l = l := by
  unfold stripPy stripBy
  rw [dropWhile_of_all_neg (fun c hc => ident_not_ws (h c hc)),
    dropWhile_of_all_neg (fun c hc => ident_not_ws (h c (List.mem_reverse.mp hc))),
    List.reverse_reverse]

/-! ### `matchFenceAt` characterizations -/

theorem matchFenceAt_none_of_not_starts {cs : List Char} (h : startsTriple cs = false) :
    matchFenceAt cs = none := by
  unfold matchFenceAt
  rw [if_neg (by simp [h])]

theorem matchFenceAt_starts {cs : List Char}
    {r : List Char × Option (List Char) × List Char × List Char}
    (h : matchFenceAt cs = some r) : startsTriple cs = true := by
  cases hst : startsTriple cs with
  | true => rfl
  | false => exact absurd h (by rw [matchFenceAt_none_of_not_starts hst]; simp)

theorem matchFenceAt_none_of_noCloser {cs : List Char}
    (h3 : containsTriple (cs.drop 3) = false) : matchFenceAt cs = none := by
  have hst : containsTriple ((cs.drop 3).dropWhile (fun c => c == ' ' || c == '\t')) = false :=
    containsTriple_dropWhile h3
  have hid : containsTriple
      (((cs.drop 3).dropWhile (fun c => c == ' ' || c == '\t')).dropWhile isIdentChar) = false :=
    containsTriple_dropWhile hst
  unfold matchFenceAt
  split
  case isFalse => rfl
  case isTrue hs =>
    split
    case h_1 cs4 heq =>
      rw [heq] at hid
      have hcs4 : containsTriple cs4 = false := (containsTriple_cons_elim hid).2
      split
      case h_1 => rfl
      case h_2 h0 hs0 cs5 hta hdr =>
        have hdw : containsTriple (cs4.dropWhile (fun c => !(c == '\n'))) = false :=
          containsTriple_dropWhile hcs4
        rw [hdr] at hdw
        have hcs5 : containsTriple cs5 = false := (containsTriple_cons_elim hdw).2
        rw [findBody_of_noTriple hcs5]
      case h_3 => rfl
    case h_2 cs4 heq =>
      rw [heq] at hid
      have hcs4 : containsTriple cs4 = false := (containsTriple_cons_elim hid).2
      rw [findBody_of_noTriple hcs4]
    case h_3 => rfl

theorem matchFenceAt_colon {lang hint B S : List Char}
    (hlang : ∀ c ∈ lang, isIdentChar c = true)
    (hhint : ∀ c ∈ hint, (c == '\n') = false) (hne : hint ≠ [])
    (hbody : containsTriple (B ++ ['`', '`']) = false) :
    matchFenceAt
        ('`' :: '`' :: '`' :: (lang ++ ':' :: (hint ++ '\n' :: (B ++ '`' :: '`' :: '`' :: S)))) =
      some (lang, some hint, B, S) := by
  have hstart : startsTriple
      ('`' :: '`' :: '`' :: (lang ++ ':' :: (hint ++ '\n' :: (B ++ '`' :: '`' :: '`' :: S)))) =
      true := by
    simp [startsTriple, tick3]
  have hsp : (lang ++ ':' :: (hint ++ '\n' :: (B ++ '`' :: '`' :: '`' :: S))).dropWhile
      (fun c => c == ' ' || c == '\t') =
      lang ++ ':' :: (hint ++ '\n' :: (B ++ '`' :: '`' :: '`' :: S)) :=
    dropWhile_append_cons_neg (fun a ha => ident_not_spacetab (hlang a ha)) (by decide)
  have hidd : (lang ++ ':' :: (hint ++ '\n' :: (B ++ '`' :: '`' :: '`' :: S))).dropWhile
      isIdentChar = ':' :: (hint ++ '\n' :: (B ++ '`' :: '`' :: '`' :: S)) := by
    rw [List.dropWhile_append_of_pos hlang, List.dropWhile_cons_of_neg (by decide)]
  have hidt : (lang ++ ':' :: (hint ++ '\n' :: (B ++ '`' :: '`' :: '`' :: S))).takeWhile
      isIdentChar = lang := by
    rw [List.takeWhile_append_of_pos hlang, List.takeWhile_cons_of_neg (by decide),
      List.append_nil]
  have hta : (hint ++ '\n' :: (B ++ '`' :: '`' :: '`' :: S)).takeWhile (fun c => !(c == '\n'))
      = hint := by
    rw [List.takeWhile_append_of_pos (by intro a ha; simp [hhint a ha]),
      List.takeWhile_cons_of_neg (by simp), List.append_nil]
  have hdr : (hint ++ '\n' :: (B ++ '`' :: '`' :: '`' :: S)).dropWhile (fun c => !(c == '\n'))
      = '\n' :: (B ++ '`' :: '`' :: '`' :: S) := by
    rw [List.dropWhile_append_of_pos (by intro a ha; simp [hhint a ha]),
      List.dropWhile_cons_of_neg (by simp)]
  cases hint with
  | nil => exact absurd rfl hne
  | cons h0 hs0 =>
    unfold matchFenceAt
    rw [if_pos hstart]
    simp only [List.drop_succ_cons, List.drop_zero, hsp, hidd, hidt, hta, hdr,
      findBody_append hbody]

theorem matchFenceAt_plain {lang B S : List Char}
    (hlang : ∀ c ∈ lang, isIdentChar c = true)
    (hbody : containsTriple (B ++ ['`', '`']) = false) :
    matchFenceAt ('`' :: '`' :: '`' :: (lang ++ '\n' :: (B ++ '`' :: '`' :: '`' :: S))) =
      some (lang, none, B, S) := by
  have hstart : startsTriple
      ('`' :: '`' :: '`' :: (lang ++ '\n' :: (B ++ '`' :: '`' :: '`' :: S))) = true := by
    simp [startsTriple, tick3]
  have hsp : (lang ++ '\n' :: (B ++ '`' :: '`' :: '`' :: S)).dropWhile
      (fun c => c == ' ' || c == '\t') = lang ++ '\n' :: (B ++ '`' :: '`' :: '`' :: S) :=
    dropWhile_append_cons_neg (fun a ha => ident_not_spacetab (hlang a ha)) (by decide)
  have hidd : (lang ++ '\n' :: (B ++ '`' :: '`' :: '`' :: S)).dropWhile isIdentChar
      = '\n' :: (B ++ '`' :: '`' :: '`' :: S) := by
    rw [List.dropWhile_append_of_pos hlang, List.dropWhile_cons_of_neg (by decide)]
  have hidt : (lang ++ '\n' :: (B ++ '`' :: '`' :: '`' :: S)).takeWhile isIdentChar = lang := by
    rw [List.takeWhile_append_of_pos hlang, List.takeWhile_cons_of_neg (by decide),
      List.append_nil]
  unfold matchFenceAt
  rw [if_pos hstart]
  simp only [List.drop_succ_cons, List.drop_zero, hsp, hidd, hidt, findBody_append hbody]

theorem matchFenceAt_suffix :
    ∀ {cs lang body rest : List Char} {hint : Option (List Char)},
      matchFenceAt cs = some (lang, hint, body, rest) → rest <:+ cs := by
  intro cs lang body rest hint hm
  have hs3 : cs.drop 3 <:+ cs := List.drop_suffix 3 cs
  have hst : (cs.drop 3).dropWhile (fun c => c == ' ' || c == '\t') <:+ cs.drop 3 :=
    ⟨(cs.drop 3).takeWhile (fun c => c == ' ' || c == '\t'),
      List.takeWhile_append_dropWhile _ _⟩
  have hid : ((cs.drop 3).dropWhile (fun c => c == ' ' || c == '\t')).dropWhile isIdentChar <:+
      (cs.drop 3).dropWhile (fun c => c == ' ' || c == '\t') :=
    ⟨_, List.takeWhile_append_dropWhile _ _⟩
  unfold matchFenceAt at hm
  split at hm
  case isFalse => exact absurd hm (by simp)
  case isTrue hstt =>
    split at hm
    case h_1 cs4 heq =>
      have hcs4 : cs4 <:+ cs :=
        ((List.suffix_cons ':' cs4).trans (heq ▸ (hid.trans (hst.trans hs3))))
      split at hm
      case h_1 => exact absurd hm (by simp)
      case h_2 h0 hs0 cs5 hta hdr =>
        have hdw : cs4.dropWhile (fun c => !(c == '\n')) <:+ cs4 :=
          ⟨_, List.takeWhile_append_dropWhile _ _⟩
        have hcs5 : cs5 <:+ cs :=
          ((List.suffix_cons '\n' cs5).trans (hdr ▸ hdw)).trans hcs4
        split at hm
        case h_1 body0 rest0 hfb =>
          have hr : rest = rest0 := by
            injection hm with h1
            injection h1 with _ h2
            injection h2 with _ h3
            injection h3 with _ h4
            exact h4.symm
          subst hr
          exact (findBody_suffix hfb).trans hcs5
        case h_2 => exact absurd hm (by simp)
      case h_3 => exact absurd hm (by simp)
    case h_2 cs4 heq =>
      have hcs4 : cs4 <:+ cs :=
        ((List.suffix_cons '\n' cs4).trans (heq ▸ (hid.trans (hst.trans hs3))))
      split at hm
      case h_1 body0 rest0 hfb =>
        have hr : rest = rest0 := by
          injection hm with h1
          injection h1 with _ h2
          injection h2 with _ h3
          injection h3 with _ h4
          exact h4.symm
        subst hr
        exact (findBody_suffix hfb).trans hcs4
      case h_2 => exact absurd hm (by simp)
    case h_3 => exact absurd hm (by simp)

/-! ### Scanning lemmas -/

theorem findMatchesAux_of_noTriple :
    ∀ {cs : List Char}, containsTriple cs = false → ∀ pos : Nat, findMatchesAux cs pos = []
  | [], _, pos => findMatchesAux_nil pos
  | c :: rest, h, pos => by
    obtain ⟨h1, h2⟩ := containsTriple_cons_elim h
    rw [findMatchesAux_cons, matchFenceAt_none_of_not_starts h1]
    exact findMatchesAux_of_noTriple h2 (pos + 1)

theorem findMatchesAux_append_skip :
    ∀ (P : List Char) {cs : List Char} (pos : Nat),
      containsTriple (P ++ cs.take 2) = false →
      findMatchesAux (P ++ cs) pos = findMatchesAux cs (pos + P.length)
  | [], cs, pos, _ => by simp
  | c :: P', cs, pos, h => by
    rw [List.cons_append] at h
    obtain ⟨h1, h2⟩ := containsTriple_cons_elim h
    have h1' : startsTriple (c :: (P' ++ cs)) = false := by
      have := startsTriple_append_take2 (u := c :: P') (v := cs) (by simp)
      rw [List.cons_append, List.cons_append] at this
      rw [this]
      exact h1
    rw [List.cons_append, findMatchesAux_cons, matchFenceAt_none_of_not_starts h1',
      findMatchesAux_append_skip P' (pos + 1) h2]
    exact congrArg (findMatchesAux cs) (by simp only [List.length_cons]; omega)

theorem findMatchesAux_pos_spec :
    ∀ {cs : List Char} {pos : Nat} {m : RawMatch}, m ∈ findMatchesAux cs pos →
      pos ≤ m.pos ∧ startsTriple (cs.drop (m.pos - pos)) = true
  | [], pos, m, hmem => by rw [findMatchesAux_nil] at hmem; simp at hmem
  | c :: rest, pos, m, hmem => by
    rw [findMatchesAux_cons] at hmem
    cases hfm : matchFenceAt (c :: rest) with
    | some r =>
      rcases r with ⟨lang, hint, body, after⟩
      rw [hfm] at hmem
      rcases List.mem_cons.mp hmem with hm | hm
      · subst hm
        simp only [Nat.sub_self, List.drop_zero]
        exact ⟨Nat.le_refl _, matchFenceAt_starts hfm⟩
      · have hsuf : after <:+ c :: rest := matchFenceAt_suffix hfm
        obtain ⟨u, hu⟩ := hsuf
        have hlen : u.length = (c :: rest).length - after.length := by
          have := congrArg List.length hu
          simp only [List.length_append] at this
          omega
        obtain ⟨ih1, ih2⟩ := findMatchesAux_pos_spec hm
        refine ⟨by omega, ?_⟩
        have hdropu : (c :: rest).drop u.length = after := by
          rw [← hu]; exact List.drop_left u after
        have heq2 : (c :: rest).drop (m.pos - pos) = after.drop (m.pos - (pos + u.length)) := by
          rw [← hdropu, List.drop_drop]
          congr 1
          omega
        rw [heq2]
        rw [← hlen] at ih2
        exact ih2
    | none =>
      rw [hfm] at hmem
      obtain ⟨ih1, ih2⟩ := findMatchesAux_pos_spec hmem
      refine ⟨by omega, ?_⟩
      have heq2 : (c :: rest).drop (m.pos - pos) = rest.drop (m.pos - (pos + 1)) := by
        have h1 : 1 ≤ m.pos - pos := by omega
        have heq3 : m.pos - pos = (m.pos - (pos + 1)) + 1 := by omega
        rw [heq3, List.drop_succ_cons]
      rw [heq2]
      exact ih2
termination_by cs _ _ _ => cs.length
decreasing_by
  all_goals first
    | exact matchFenceAt_rest_length hfm
    | simp

/-! ### Line-start index and binary search -/

theorem lineStartsAux_append :
    ∀ (A B : List Char) (i : Nat),
      lineStartsAux (A ++ B) i = lineStartsAux A i ++ lineStartsAux B (i + A.length)
  | [], B, i => by simp [lineStartsAux]
  | c :: A', B, i => by
    rw [List.cons_append]
    simp only [lineStartsAux]
    split
    · rw [lineStartsAux_append A' B (i + 1), List.cons_append]
      congr 3
      simp only [List.length_cons]
      omega
    · rw [lineStartsAux_append A' B (i + 1)]
      congr 2
      simp only [List.length_cons]
      omega

theorem lineStartsAux_mem_gt :
    ∀ {cs : List Char} {i x : Nat}, x ∈ lineStartsAux cs i → i < x
  | [], _, _, h => by simp [lineStartsAux] at h
  | c :: rest, i, x, h => by
    simp only [lineStartsAux] at h
    split at h
    · rcases List.mem_cons.mp h with h | h
      · omega
      · have := lineStartsAux_mem_gt h
        omega
    · have := lineStartsAux_mem_gt h
      omega

theorem lineStartsAux_mem_le :
    ∀ {cs : List Char} {i x : Nat}, x ∈ lineStartsAux cs i → x ≤ i + cs.length
  | [], _, _, h => by simp [lineStartsAux] at h
  | c :: rest, i, x, h => by
    simp only [lineStartsAux] at h
    simp only [List.length_cons]
    split at h
    · rcases List.mem_cons.mp h with h | h
      · omega
      · have := lineStartsAux_mem_le h
        omega
    · have := lineStartsAux_mem_le h
      omega

theorem lineStartsAux_length_eq_count :
    ∀ (cs : List Char) (i : Nat), (lineStartsAux cs i).length = cs.count '\n'
  | [], _ => by simp [lineStartsAux]
  | c :: rest, i => by
    rw [List.count_cons]
    simp only [lineStartsAux]
    split
    case isTrue h =>
      rw [List.length_cons, lineStartsAux_length_eq_count rest (i + 1)]
    case isFalse h =>
      rw [lineStartsAux_length_eq_count rest (i + 1)]
      have hb : (c == '\n') = false := by
        cases hb : (c == '\n') with
        | false => rfl
        | true => exact absurd hb (by simpa using h)
      simp [hb]

theorem lineStartsAux_pairwise :
    ∀ (cs : List Char) (i : Nat), List.Pairwise (· < ·) (lineStartsAux cs i)
  | [], _ => by simp [lineStartsAux]
  | c :: rest, i => by
    simp only [lineStartsAux]
    split
    · exact List.Pairwise.cons (fun x hx => lineStartsAux_mem_gt hx)
        (lineStartsAux_pairwise rest (i + 1))
    · exact lineStartsAux_pairwise rest (i + 1)

theorem line_starts_pairwise (cs : List Char) : List.Pairwise (· < ·) (line_starts cs) := by
  unfold line_starts
  exact List.Pairwise.cons
    (fun x hx => Nat.lt_of_lt_of_le (Nat.zero_lt_one)
      (by have := lineStartsAux_mem_gt hx; omega))
    (lineStartsAux_pairwise cs 0)

/-- Correctness of the binary-search loop on a "true-block then false-block"
index layout: if `ls = L1 ++ L2` with every element of `L1` at most `offset`
and every element of `L2` greater, the loop returns the last index of `L1`. -/
theorem offsetToLineLoop_eq (L1 L2 : List Nat) (offset : Nat)
    (h1 : ∀ x ∈ L1, x ≤ offset) (h2 : ∀ x ∈ L2, offset < x) (hne : L1 ≠ []) :
    ∀ lo hi, lo ≤ L1.length - 1 → L1.length - 1 ≤ hi → hi < L1.length + L2.length →
      offsetToLineLoop (L1 ++ L2) offset lo hi = L1.length - 1 := by
  have ha : 1 ≤ L1.length := by
    cases L1 with
    | nil => exact absurd rfl hne
    | cons x xs => simp
  have H : ∀ d lo hi, hi - lo ≤ d → lo ≤ L1.length - 1 → L1.length - 1 ≤ hi →
      hi < L1.length + L2.length →
      offsetToLineLoop (L1 ++ L2) offset lo hi = L1.length - 1 := by
    intro d
    induction d with
    | zero =>
      intro lo hi hd hlo hhi hlen
      have hlohi : lo = hi := by omega
      subst hlohi
      rw [offsetToLineLoop, if_neg (by omega)]
      omega
    | succ d ih =>
      intro lo hi hd hlo hhi hlen
      by_cases hlt : lo < hi
      · rw [offsetToLineLoop, if_pos hlt]
        have hmidlo : lo < (lo + hi + 1) / 2 := by omega
        have hmidhi : (lo + hi + 1) / 2 ≤ hi := by omega
        by_cases hmid : (lo + hi + 1) / 2 ≤ L1.length - 1
        · have hget : (L1 ++ L2).getD ((lo + hi + 1) / 2) 0 ≤ offset := by
            have hin : (lo + hi + 1) / 2 < L1.length := by omega
            rw [List.getD_append _ _ _ _ hin, List.getD_eq_getElem _ _ hin]
            exact h1 _ (List.getElem_mem hin)
          rw [if_pos hget]
          exact ih _ _ (by omega) hmid hhi hlen
        · have hget : ¬ (L1 ++ L2).getD ((lo + hi + 1) / 2) 0 ≤ offset := by
            have hge : L1.length ≤ (lo + hi + 1) / 2 := by omega
            rw [List.getD_append_right _ _ _ _ hge]
            have hin : (lo + hi + 1) / 2 - L1.length < L2.length := by omega
            rw [List.getD_eq_getElem _ _ hin]
            have := h2 _ (List.getElem_mem hin)
            omega
          rw [if_neg hget]
          exact ih _ _ (by omega) (by omega) (by omega) (by omega)
      · rw [offsetToLineLoop, if_neg hlt]
        omega
  exact fun lo hi hlo hhi hlen => H (hi - lo) lo hi (Nat.le_refl _) hlo hhi hlen

theorem offset_to_line_eq (L1 L2 : List Nat) (offset : Nat)
    (h1 : ∀ x ∈ L1, x ≤ offset) (h2 : ∀ x ∈ L2, offset < x) (hne : L1 ≠ []) :
    offset_to_line (L1 ++ L2) offset = L1.length := by
  have ha : 1 ≤ L1.length := by
    cases L1 with
    | nil => exact absurd rfl hne
    | cons x xs => simp
  unfold offset_to_line
  rw [offsetToLineLoop_eq L1 L2 offset h1 h2 hne 0 ((L1 ++ L2).length - 1) (by omega)
    (by simp only [List.length_append]; omega) (by simp only [List.length_append]; omega)]
  omega

/-- Line number of the boundary offset `P.length` in the document `P ++ Q`:
one more than the number of newlines in `P`. -/
theorem offset_to_line_boundary (P Q : List Char) :
    offset_to_line (line_starts (P ++ Q)) P.length = P.count '\n' + 1 := by
  have hsplit : line_starts (P ++ Q) =
      (0 :: lineStartsAux P 0) ++ lineStartsAux Q P.length := by
    unfold line_starts
    rw [lineStartsAux_append P Q 0]
    simp
  rw [hsplit]
  rw [offset_to_line_eq (0 :: lineStartsAux P 0) (lineStartsAux Q P.length) P.length
    (by
      intro x hx
      rcases List.mem_cons.mp hx with h | h
      · omega
      · have := lineStartsAux_mem_le h
        omega)
    (fun x hx => lineStartsAux_mem_gt hx)
    (by simp)]
  simp [lineStartsAux_length_eq_count]

/-! ### Junction lemma: a newline blocks triple backticks from spanning it -/

theorem startsTriple_cons_ne {c : Char} {l : List Char} (hc : c ≠ '`') :
    startsTriple (c :: l) = false := by
  cases l with
  | nil => simp [startsTriple, tick3]
  | cons c2 l2 =>
    cases l2 with
    | nil => simp [startsTriple, tick3, hc]
    | cons c3 l3 => simp [startsTriple, tick3, hc]

theorem noTriple_append_cons_newline :
    ∀ {A : List Char} {B : List Char}, containsTriple A = false →
      containsTriple B = false → containsTriple (A ++ '\n' :: B) = false
  | [], B, _, hB => by
    simp only [List.nil_append, containsTriple]
    rw [startsTriple_cons_ne (by decide), hB]
    rfl
  | c :: A', B, hA, hB => by
    obtain ⟨h1, h2⟩ := containsTriple_cons_elim hA
    rw [List.cons_append]
    simp only [containsTriple]
    rw [noTriple_append_cons_newline h2 hB]
    have hfst : startsTriple (c :: (A' ++ '\n' :: B)) = false := by
      cases A' with
      | nil => simp [startsTriple, tick3]
      | cons c2 A'' =>
        cases A'' with
        | nil => simp [startsTriple, tick3]
        | cons c3 A''' =>
          have : startsTriple (c :: ((c2 :: c3 :: A''') ++ '\n' :: B)) =
              startsTriple (c :: c2 :: c3 :: A''') := by
            simp [startsTriple, tick3, List.take]
          rw [this]
          exact h1
    rw [hfst]
    rfl

/-! ### Fence text shapes -/

/-- A document containing one fence with language tag and colon filename hint:
```` P```lang:hint\nB\n``` S ````. -/
def fenceTextColon (P lang hint B S : List Char) : List Char :=
  P ++ '`' :: '`' :: '`' ::
    (lang ++ ':' :: (hint ++ '\n' :: ((B ++ ['\n']) ++ '`' :: '`' :: '`' :: S)))

/-- A document containing one fence with no colon hint:
```` P```lang\nB``` S ```` (the captured body `B` is everything up to the
closer). -/
def fenceTextPlain (P lang B S : List Char) : List Char :=
  P ++ '`' :: '`' :: '`' :: (lang ++ '\n' :: (B ++ '`' :: '`' :: '`' :: S))

/-- A document whose only fence opening is unterminated: `P```Q` with no
other triple backtick anywhere. -/
def unterminatedText (P Q : List Char) : List Char :=
  P ++ '`' :: '`' :: '`' :: Q

/-- C1: for every text containing exactly one well-formed fence
```` ```lang:name.ext\nBODY\n``` ```` whose opening delimiter starts at line
L, `extract_code_blocks` returns exactly one block with language `lang`,
filename hint `name.ext`, body `BODY\n` (the raw text up to the closer,
including the trailing newline), and line number L.  The side conditions say
exactly that the fence is the only well-formed one: no triple backtick occurs
before it, inside its body, or after it, the tag is drawn from the regex
charset, and the hint is a nonempty newline-free string unchanged by
stripping. -/
theorem claim1_single_fence_extraction
    (P lang hint B S : List Char)
    (hP : containsTriple (P ++ ['`', '`']) = false)
    (hlang : ∀ c ∈ lang, isIdentChar c = true)
    (hhint : ∀ c ∈ hint, (c == '\n') = false)
    (hhne : hint ≠ []) (hstrip : stripPy hint = hint)
    (hB : containsTriple B = false)
    (hS : containsTriple S = false) :
    extract_code_blocks (fenceTextColon P lang hint B S) =
      [⟨lang, hint, B ++ ['\n'], P.count '\n' + 1⟩] := by
  have hbody : containsTriple ((B ++ ['\n']) ++ ['`', '`']) = false := by
    rw [List.append_assoc]
    exact noTriple_append_cons_newline hB (by decide)
  have hfence := matchFenceAt_colon (S := S) hlang hhint hhne hbody
  unfold fenceTextColon extract_code_blocks
  rw [findMatchesAux_append_skip P 0 (by exact hP)]
  rw [findMatchesAux_cons, hfence]
  simp only [findMatchesAux_of_noTriple hS, List.map_cons, List.map_nil, Nat.zero_add]
  rw [stripPy_of_all_ident hlang, hstrip, offset_to_line_boundary P]

/-- C8: (a) a fence with a language tag but no colon hint yields an empty
filename hint (and with an empty tag both fields are empty); (b) an opening
fence with no closing triple backtick before the end of the document yields
no block at all. -/
theorem claim8_edge_cases :
    (∀ P lang B S : List Char,
      containsTriple (P ++ ['`', '`']) = false →
      (∀ c ∈ lang, isIdentChar c = true) →
      containsTriple (B ++ ['`', '`']) = false →
      containsTriple S = false →
      extract_code_blocks (fenceTextPlain P lang B S) =
        [⟨lang, [], B, P.count '\n' + 1⟩]) ∧
    (∀ P Q : List Char,
      containsTriple (P ++ ['`', '`']) = false →
      containsTriple ('`' :: '`' :: Q) = false →
      extract_code_blocks (unterminatedText P Q) = []) := by
  constructor
  · intro P lang B S hP hlang hB hS
    have hfence := matchFenceAt_plain (S := S) hlang hB
    unfold fenceTextPlain extract_code_blocks
    rw [findMatchesAux_append_skip P 0 (by exact hP)]
    rw [findMatchesAux_cons, hfence]
    simp only [findMatchesAux_of_noTriple hS, List.map_cons, List.map_nil, Nat.zero_add]
    rw [stripPy_of_all_ident hlang, offset_to_line_boundary P]
  · intro P Q hP hQ
    have hQ' : containsTriple Q = false :=
      containsTriple_of_append (u := ['`', '`']) (by simpa using hQ)
    unfold unterminatedText extract_code_blocks
    rw [findMatchesAux_append_skip P 0 (by exact hP)]
    rw [findMatchesAux_cons,
      matchFenceAt_none_of_noCloser (by simpa using hQ')]
    simp only [findMatchesAux_of_noTriple hQ, List.map_nil]

/-- C1 witness: concrete instance ```` ```py:a.b\nx\n``` ````. -/
theorem claim1_witness :
    extract_code_blocks (fenceTextColon [] ['p', 'y'] ['a', '.', 'b'] ['x'] []) =
      [⟨['p', 'y'], ['a', '.', 'b'], ['x', '\n'], 1⟩] := by
  have h := claim1_single_fence_extraction [] ['p', 'y'] ['a', '.', 'b'] ['x'] []
    (by decide) (by decide) (by decide) (by decide) (by decide) (by decide) (by decide)
  simpa using h

/-- C8 witness: a fence with tag but no hint, one with neither, and an
unterminated opening. -/
theorem claim8_witness :
    extract_code_blocks (fenceTextPlain [] ['p', 'y'] ['c', '\n'] []) =
      [⟨['p', 'y'], [], ['c', '\n'], 1⟩] ∧
    extract_code_blocks (fenceTextPlain [] [] ['z', '\n'] []) = [⟨[], [], ['z', '\n'], 1⟩] ∧
    extract_code_blocks (unterminatedText [] ['p', 'y', '\n', 'c']) = [] := by
  refine ⟨?_, ?_, ?_⟩
  · simpa using claim8_edge_cases.1 [] ['p', 'y'] ['c', '\n'] []
      (by decide) (by decide) (by decide) (by decide)
  · simpa using claim8_edge_cases.1 [] [] ['z', '\n'] []
      (by decide) (by decide) (by decide) (by decide)
  · simpa using claim8_edge_cases.2 [] ['p', 'y', '\n', 'c'] (by decide) (by decide)

/-- C3 (amended): every block reported by the scanner has its opening triple
backtick at the reported offset — the three characters there are backticks —
but that offset need not be the beginning of a line. -/
theorem claim3_amended_triple_at_offset (text : List Char) (m : RawMatch)
    (hm : m ∈ findMatchesAux text 0) :
    startsTriple (text.drop m.pos) = true := by
  have h := findMatchesAux_pos_spec hm
  simpa using h.2

/-- C3 witness: the block of `a```\nb\n``` ` opens at offset 1 where a triple
backtick begins. -/
theorem claim3_amended_witness :
    startsTriple ((String.toList "a```\nb\n```").drop 1) = true := by
  have hmem : (⟨1, [], none, ['b', '\n']⟩ : RawMatch) ∈
      findMatchesAux (String.toList "a```\nb\n```") 0 := by
    simp [findMatchesAux_cons, findMatchesAux_nil, matchFenceAt, findBody,
      startsTriple, tick3, String.toList, isIdentChar]
  exact claim3_amended_triple_at_offset (String.toList "a```\nb\n```") _ hmem

/-- C3 counterexample: in `a```\nb\n``` ` the scanner reports exactly one
block, whose opening delimiter is at offset 1 — neither offset 0 nor
immediately after a newline (the character before it is 'a') — refuting the
claim that a reported opening delimiter always sits at the beginning of a
line. -/
theorem claim3_counterexample :
    extract_code_blocks (String.toList "a```\nb\n```") = [⟨[], [], ['b', '\n'], 1⟩] ∧
    (findMatchesAux (String.toList "a```\nb\n```") 0).map (fun m => m.pos) = [1] ∧
    ¬ (1 = 0 ∨ (String.toList "a```\nb\n```").getD 0 ' ' = '\n') := by
  refine ⟨?_, ?_, by decide⟩
  · simp [extract_code_blocks, findMatchesAux_cons, findMatchesAux_nil, matchFenceAt,
      findBody, startsTriple, tick3, line_starts, lineStartsAux, offset_to_line,
      offsetToLineLoop, stripPy, stripBy, isPyWS, String.toList, isIdentChar]
  · simp [findMatchesAux_cons, findMatchesAux_nil, matchFenceAt, findBody,
      startsTriple, tick3, String.toList, isIdentChar]

theorem pairwise_dropWhile_gt {l : List Nat} {off : Nat}
    (hp : List.Pairwise (· < ·) l) :
    ∀ x ∈ l.dropWhile (fun y => decide (y ≤ off)), off < x := by
  induction l with
  | nil => simp
  | cons a l ih =>
    rw [List.dropWhile_cons]
    intro x hx
    split at hx
    · exact ih hp.of_cons x hx
    · rename_i hcond
      have ha : off < a := by simpa using hcond
      rcases List.mem_cons.mp hx with h | h
      · omega
      · have hax := (List.pairwise_cons.mp hp).1 x h
        omega

/-- C2: for every text and every offset lying within it, `offset_to_line`
(the binary search over the sorted line-start offsets) returns the 1-based
index of the greatest line-start offset that is at most the query offset;
in particular offset 0 (a fence opening on line 1) resolves to line 1. -/
theorem claim2_offset_to_line_correct (text : List Char) (off : Nat)
    (hoff : off < text.length) :
    (∃ k, k < (line_starts text).length ∧
      offset_to_line (line_starts text) off = k + 1 ∧
      (line_starts text).getD k 0 ≤ off ∧
      ∀ j, j < (line_starts text).length →
        (line_starts text).getD j 0 ≤ off → j ≤ k) ∧
    offset_to_line (line_starts text) 0 = 1 := by
  constructor
  · obtain ⟨L1, L2, hsplit, h1, h2, hne⟩ :
        ∃ L1 L2 : List Nat, line_starts text = L1 ++ L2 ∧
          (∀ x ∈ L1, x ≤ off) ∧ (∀ x ∈ L2, off < x) ∧ L1 ≠ [] := by
      refine ⟨(line_starts text).takeWhile (fun y => decide (y ≤ off)),
        (line_starts text).dropWhile (fun y => decide (y ≤ off)),
        (List.takeWhile_append_dropWhile _ _).symm, ?_, ?_, ?_⟩
      · intro x hx
        have := List.mem_takeWhile_imp hx
        simpa using this
      · exact pairwise_dropWhile_gt (line_starts_pairwise text)
      · unfold line_starts
        rw [List.takeWhile_cons_of_pos (by simp)]
        simp
    have hL1 : 1 ≤ L1.length := by
      cases L1 with
      | nil => exact absurd rfl hne
      | cons x xs => simp
    refine ⟨L1.length - 1, ?_, ?_, ?_, ?_⟩
    · rw [hsplit, List.length_append]
      omega
    · rw [hsplit, offset_to_line_eq _ _ off h1 h2 hne]
      omega
    · have hk : L1.length - 1 < L1.length := by omega
      rw [hsplit, List.getD_append _ _ _ _ hk, List.getD_eq_getElem _ _ hk]
      exact h1 _ (List.getElem_mem hk)
    · intro j hj hle
      by_contra hgt
      have hge : L1.length ≤ j := by omega
      rw [hsplit, List.getD_append_right _ _ _ _ hge] at hle
      rw [hsplit, List.length_append] at hj
      have hjlt : j - L1.length < L2.length := by omega
      rw [List.getD_eq_getElem _ _ hjlt] at hle
      have := h2 _ (List.getElem_mem hjlt)
      omega
  · have : line_starts text = [0] ++ lineStartsAux text 0 := by
      unfold line_starts
      simp
    rw [this, offset_to_line_eq [0] _ 0 (by simp)
      (fun x hx => lineStartsAux_mem_gt hx) (by simp)]
    rfl

/-- C2 witness: offset 2 of `a\nb` lies on line 2, and the greatest line-start
at most 2 is the one at index 1. -/
theorem claim2_witness :
    2 < (String.toList "a\nb").length ∧
    ((∃ k, k < (line_starts (String.toList "a\nb")).length ∧
      offset_to_line (line_starts (String.toList "a\nb")) 2 = k + 1 ∧
      (line_starts (String.toList "a\nb")).getD k 0 ≤ 2 ∧
      ∀ j, j < (line_starts (String.toList "a\nb")).length →
        (line_starts (String.toList "a\nb")).getD j 0 ≤ 2 → j ≤ k) ∧
    offset_to_line (line_starts (String.toList "a\nb")) 0 = 1) :=
  ⟨by decide, claim2_offset_to_line_correct (String.toList "a\nb") 2 (by decide)⟩

/-! ### Table runs: spec-level view of the scan -/

/-- The stripped physical lines of the document, as the table scanner sees
them. -/
def strippedLines (md_text : List Char) : List (List Char) :=
  (splitlines md_text).map stripPy

/-- The maximal consecutive runs of candidate table lines, in order. -/
def candidateRuns : List (List Char) → List (List (List Char))
  | [] => []
  | l :: rest =>
    if isCand l then (l :: rest.takeWhile isCand) :: candidateRuns (rest.dropWhile isCand)
    else candidateRuns rest
termination_by ls => ls.length
decreasing_by
  · have := dropWhile_length_le isCand rest
    simp only [List.length_cons]
    omega
  · simp

/-- The grid a run yields: drop separator rows, split the rest into cells,
and discard the run when nothing survives. -/
def mkGrid (run : List (List Char)) : Option TableGrid :=
  if (((run.filter (fun r => !sepMatch r)).map cellsOf)).isEmpty then none
  else some ((run.filter (fun r => !sepMatch r)).map cellsOf)

/-- The claim's wording of a separator-like line: its (already trimmed)
content consists only of whitespace, '-', '|' and ':' characters. -/
def isSepSpec (r : List Char) : Bool :=
  r.all (fun c => isPyWS c || c == '-' || c == '|' || c == ':')

/-- The structural characterization of the `extract_tables` loop: starting at
index `i`, it produces exactly one grid attempt per maximal candidate run of
the remaining stripped lines. -/
theorem tablesLoop_eq_runs (lines : List (List Char)) (i : Nat) :
    tablesLoop lines i = (candidateRuns ((lines.drop i).map stripPy)).filterMap mkGrid := by
  rw [tablesLoop]
  split
  case isTrue h =>
    have hdrop : lines.drop i = lines[i] :: lines.drop (i + 1) :=
      List.drop_eq_getElem_cons h
    split
    case isTrue hc =>
      have hcr := collectRun_eq lines i
      rw [hdrop, List.map_cons, List.takeWhile_cons_of_pos hc] at hcr
      have hdropj : (lines.drop
          (i + (stripPy lines[i] ::
            (((lines.drop (i + 1)).map stripPy).takeWhile isCand)).length)).map stripPy =
          ((lines.drop (i + 1)).map stripPy).dropWhile isCand := by
        have h1 : i + (stripPy lines[i] ::
            (((lines.drop (i + 1)).map stripPy).takeWhile isCand)).length =
            (i + 1) + (((lines.drop (i + 1)).map stripPy).takeWhile isCand).length := by
          simp only [List.length_cons]
          omega
        rw [h1, ← List.drop_drop, List.map_drop]
        have h2 : List.drop
            ((((lines.drop (i + 1)).map stripPy).takeWhile isCand).length)
            (((lines.drop (i + 1)).map stripPy).takeWhile isCand ++
              ((lines.drop (i + 1)).map stripPy).dropWhile isCand) =
            ((lines.drop (i + 1)).map stripPy).dropWhile isCand := List.drop_left' rfl
        rw [List.takeWhile_append_dropWhile] at h2
        exact h2
      simp only [hcr]
      rw [tablesLoop_eq_runs lines
        (i + (stripPy lines[i] ::
          (((lines.drop (i + 1)).map stripPy).takeWhile isCand)).length)]
      rw [hdropj, hdrop, List.map_cons, candidateRuns, if_pos hc, List.filterMap_cons]
      rw [mkGrid]
      split
      case isTrue hemp => rfl
      case isFalse hemp => rfl
    case isFalse hc =>
      rw [tablesLoop_eq_runs lines (i + 1)]
      rw [hdrop, List.map_cons, candidateRuns, if_neg hc]
  case isFalse h =>
    rw [List.drop_eq_nil_of_le (by omega), List.map_nil, candidateRuns, List.filterMap_nil]
termination_by lines.length - i
decreasing_by
  all_goals
    have hlen := congrArg List.length hdrop
    simp only [List.length_drop, List.length_cons] at hlen
    try simp only [List.length_cons]
  all_goals omega

/-- Top-level corollary of `tablesLoop_eq_runs`: `extract_tables` is the
per-run pipeline over the maximal candidate runs of the stripped lines. -/
theorem extract_tables_eq_runs (md_text : List Char) :
    extract_tables md_text = (candidateRuns (strippedLines md_text)).filterMap mkGrid := by
  unfold extract_tables strippedLines
  rw [tablesLoop_eq_runs]
  rfl

theorem isCand_ne_nil {l : List Char} (h : isCand l = true) : l ≠ [] := by
  intro he
  subst he
  simp [isCand] at h

theorem sepMatch_eq_isSepSpec {r : List Char} (h : r ≠ []) : sepMatch r = isSepSpec r := by
  cases r with
  | nil => exact absurd rfl h
  | cons c rest =>
    unfold sepMatch isSepSpec isSepChar
    simp [List.isEmpty]

theorem splitOnPipe_ne_nil : ∀ s : List Char, splitOnPipe s ≠ []
  | [] => by simp [splitOnPipe]
  | c :: rest => by
    rw [splitOnPipe]
    split
    · simp
    · cases hs : splitOnPipe rest with
      | nil => simp
      | cons g gs => simp

theorem cellsOf_ne_nil (r : List Char) : cellsOf r ≠ [] := by
  unfold cellsOf
  intro h
  rw [List.map_eq_nil_iff] at h
  exact splitOnPipe_ne_nil _ h

/-! ### Candidate-run facts -/

theorem candidateRuns_all_cand :
    ∀ {ls : List (List Char)} {run : List (List Char)}, run ∈ candidateRuns ls →
      run ≠ [] ∧ ∀ l ∈ run, isCand l = true
  | [], run, h => by simp [candidateRuns] at h
  | l :: rest, run, h => by
    rw [candidateRuns] at h
    split at h
    case isTrue hc =>
      rcases List.mem_cons.mp h with h | h
      · subst h
        refine ⟨by simp, ?_⟩
        intro x hx
        rcases List.mem_cons.mp hx with h | h
        · exact h ▸ hc
        · exact List.mem_takeWhile_imp h
      · exact candidateRuns_all_cand h
    case isFalse hc => exact candidateRuns_all_cand h
termination_by ls _ _ => ls.length
decreasing_by
  all_goals have := dropWhile_length_le isCand rest
  all_goals simp only [List.length_cons]
  all_goals omega

theorem candidateRuns_sub :
    ∀ {ls : List (List Char)} {run : List (List Char)}, run ∈ candidateRuns ls →
      ∀ l ∈ run, l ∈ ls
  | [], run, h => by simp [candidateRuns] at h
  | l :: rest, run, h => by
    rw [candidateRuns] at h
    split at h
    case isTrue hc =>
      rcases List.mem_cons.mp h with h | h
      · subst h
        intro x hx
        rcases List.mem_cons.mp hx with h | h
        · exact h ▸ List.mem_cons_self l rest
        · exact List.mem_cons_of_mem l (mem_of_takeWhile_mem isCand h)
      · intro x hx
        exact List.mem_cons_of_mem l
          (mem_of_dropWhile_mem isCand (candidateRuns_sub h x hx))
    case isFalse hc =>
      intro x hx
      exact List.mem_cons_of_mem l (candidateRuns_sub h x hx)
termination_by ls _ _ => ls.length
decreasing_by
  all_goals have := dropWhile_length_le isCand rest
  all_goals simp only [List.length_cons]
  all_goals omega

theorem takeWhile_append_break {α : Type} {p : α → Bool} {b : α} (hb : p b = false) :
    ∀ (u v : List α), (u ++ b :: v).takeWhile p = u.takeWhile p
  | [], v => by simp [List.takeWhile_cons, hb]
  | x :: u', v => by
    rw [List.cons_append, List.takeWhile_cons, List.takeWhile_cons]
    split
    · rw [takeWhile_append_break hb u' v]
    · rfl

theorem dropWhile_append_break {α : Type} {p : α → Bool} {b : α} (hb : p b = false) :
    ∀ (u v : List α), (u ++ b :: v).dropWhile p = u.dropWhile p ++ b :: v
  | [], v => by simp [List.dropWhile_cons, hb]
  | x :: u', v => by
    rw [List.cons_append, List.dropWhile_cons, List.dropWhile_cons]
    split
    · rw [dropWhile_append_break hb u' v]
    · rfl

theorem candidateRuns_append_break {b : List Char} (hb : isCand b = false) :
    ∀ (u v : List (List Char)),
      candidateRuns (u ++ b :: v) = candidateRuns u ++ candidateRuns v
  | [], v => by
    have h1 : candidateRuns ([] : List (List Char)) = [] := by rw [candidateRuns]
    have h2 : candidateRuns (b :: v) = candidateRuns v := by
      rw [candidateRuns, if_neg (by simp [hb])]
    rw [List.nil_append, h2, h1, List.nil_append]
  | x :: u', v => by
    by_cases hc : isCand x = true
    · have hL : candidateRuns ((x :: u') ++ b :: v) =
          (x :: (u' ++ b :: v).takeWhile isCand) ::
            candidateRuns ((u' ++ b :: v).dropWhile isCand) := by
        rw [List.cons_append, candidateRuns, if_pos hc]
      have hR : candidateRuns (x :: u') =
          (x :: u'.takeWhile isCand) :: candidateRuns (u'.dropWhile isCand) := by
        rw [candidateRuns, if_pos hc]
      rw [hL, hR, takeWhile_append_break hb u' (b := b), dropWhile_append_break hb u' (b := b),
        candidateRuns_append_break hb (u'.dropWhile isCand) v]
      rfl
    · have hL : candidateRuns ((x :: u') ++ b :: v) = candidateRuns (u' ++ b :: v) := by
        rw [List.cons_append, candidateRuns, if_neg hc]
      have hR : candidateRuns (x :: u') = candidateRuns u' := by
        rw [candidateRuns, if_neg hc]
      rw [hL, hR, candidateRuns_append_break hb u' v]
termination_by u _ => u.length
decreasing_by
  all_goals have := dropWhile_length_le isCand u'
  all_goals simp only [List.length_cons]
  all_goals omega

theorem candidateRuns_of_all {ls : List (List Char)} (hne : ls ≠ [])
    (hall : ∀ l ∈ ls, isCand l = true) : candidateRuns ls = [ls] := by
  cases ls with
  | nil => exact absurd rfl hne
  | cons l rest =>
    rw [candidateRuns, if_pos (hall l (List.mem_cons_self l rest))]
    have ht : rest.takeWhile isCand = rest :=
      List.takeWhile_eq_self_iff.mpr (fun x hx => hall x (List.mem_cons_of_mem l hx))
    have hd : rest.dropWhile isCand = [] := by
      have := List.takeWhile_append_dropWhile (p := isCand) (l := rest)
      rw [ht] at this
      have hlen := congrArg List.length this
      rw [List.length_append] at hlen
      cases hdw : rest.dropWhile isCand with
      | nil => rfl
      | cons y ys =>
        rw [hdw] at hlen
        simp at hlen
    rw [ht, hd, candidateRuns]

/-- C4: the separator-row filter drops every line whose trimmed content
consists only of whitespace, '-', '|' and ':' characters, regardless of its
position in its run, and a run whose every line is separator-like contributes
no grid: `extract_tables` is exactly the per-run pipeline that filters by the
claim's separator predicate and discards empty row lists. -/
theorem claim4_separator_filter (text : List Char) :
    extract_tables text =
      ((candidateRuns (strippedLines text)).map
        (fun run => (run.filter (fun r => !(isSepSpec r))).map cellsOf)).filter
        (fun rows => !rows.isEmpty) := by
  rw [extract_tables_eq_runs]
  suffices H : ∀ runs : List (List (List Char)),
      (∀ run ∈ runs, ∀ l ∈ run, isCand l = true) →
      runs.filterMap mkGrid =
        (runs.map (fun run => (run.filter (fun r => !(isSepSpec r))).map cellsOf)).filter
          (fun rows => !rows.isEmpty) by
    exact H _ (fun run h => (candidateRuns_all_cand h).2)
  intro runs
  induction runs with
  | nil => intro _; rfl
  | cons run runs ih =>
    intro hall
    have hsep : run.filter (fun r => !sepMatch r) = run.filter (fun r => !(isSepSpec r)) :=
      List.filter_congr (fun r hr => by
        rw [sepMatch_eq_isSepSpec (isCand_ne_nil (hall run (List.mem_cons_self _ _) r hr))])
    rw [List.filterMap_cons, List.map_cons, List.filter_cons]
    by_cases hemp : (((run.filter (fun r => !(isSepSpec r))).map cellsOf)).isEmpty = true
    · have hmk : mkGrid run = none := by rw [mkGrid, hsep, if_pos hemp]
      simp only [hmk]
      rw [if_neg (by simp [hemp])]
      exact ih (fun r h => hall r (List.mem_cons_of_mem _ h))
    · have hmk : mkGrid run =
          some ((run.filter (fun r => !(isSepSpec r))).map cellsOf) := by
        rw [mkGrid, hsep, if_neg hemp]
      simp only [hmk]
      rw [if_pos (by simp [hemp])]
      rw [ih (fun r h => hall r (List.mem_cons_of_mem _ h))]

/-- C10: every grid returned by `extract_tables` has at least one row, and
every row of every returned grid has at least one cell. -/
theorem claim10_nonempty_grids (text : List Char) :
    ∀ g ∈ extract_tables text, g ≠ [] ∧ ∀ row ∈ g, row ≠ [] := by
  intro g hg
  rw [extract_tables_eq_runs] at hg
  obtain ⟨run, hrun, hmk⟩ := List.mem_filterMap.mp hg
  rw [mkGrid] at hmk
  split at hmk
  · exact absurd hmk (by simp)
  · rename_i hemp
    have hg' : g = (run.filter (fun r => !sepMatch r)).map cellsOf := by
      injection hmk with h
      exact h.symm
    subst hg'
    refine ⟨by simpa using hemp, ?_⟩
    intro row hrow
    obtain ⟨line, hline, hcell⟩ := List.mem_map.mp hrow
    rw [← hcell]
    exact cellsOf_ne_nil line

/-- C10 witness: the grid of `|a|`. -/
theorem claim10_witness :
    ([[['a']]] : TableGrid) ≠ [] ∧ ∀ row ∈ ([[['a']]] : TableGrid), row ≠ [] :=
  claim10_nonempty_grids (String.toList "|a|") [[['a']]] (by
    simp [extract_tables, tablesLoop, collectRun, splitlines, splitlinesGo, isLineBreak, isCand, sepMatch,
      cellsOf, splitOnPipe, stripPy, stripBy, isPyWS, isSepChar, String.toList])

/-- Modelled from the claim's wording only (for comparison with the source):
remove exactly ONE leading '|' if present. -/
def dropOneLeadingPipe : List Char → List Char
  | '|' :: rest => rest
  | l => l

/-- Modelled from the claim's wording only: remove exactly ONE trailing '|'
if present. -/
def dropOneTrailingPipe (l : List Char) : List Char :=
  (dropOneLeadingPipe l.reverse).reverse

/-- Modelled from the claim's wording only: strip exactly one leading and one
trailing '|' from the trimmed line, split the remainder on '|' and trim each
resulting cell. -/
def cellsOneStrip (r : List Char) : List (List Char) :=
  (splitOnPipe (dropOneTrailingPipe (dropOneLeadingPipe r))).map stripPy

/-- Modelled from the amended claim's wording: strip ALL leading and trailing
'|' characters from the trimmed line, split the remainder on '|' and trim
each resulting cell. -/
def cellsAllStrip (r : List Char) : List (List Char) :=
  (splitOnPipe (((r.dropWhile (fun c => c == '|')).reverse.dropWhile
    (fun c => c == '|')).reverse)).map stripPy

/-- C5 counterexample: on the table line `||a||` the code produces the single
cell `a` (all boundary pipes stripped), while stripping exactly one leading
and one trailing pipe would produce the three cells `"", a, ""`. -/
theorem claim5_counterexample :
    extract_tables (String.toList "||a||") = [[[['a']]]] ∧
    cellsOneStrip (String.toList "||a||") = [[], ['a'], []] ∧
    ¬ ([['a']] : Row) = cellsOneStrip (String.toList "||a||") := by
  refine ⟨?_, by decide, by decide⟩
  simp [extract_tables, tablesLoop, collectRun, splitlines, splitlinesGo, isLineBreak, isCand, sepMatch,
    cellsOf, splitOnPipe, stripPy, stripBy, isPyWS, isSepChar, String.toList]

/-- C5 (amended): every row of every grid returned by `extract_tables` is
obtained from some actual (stripped, candidate, non-separator) line of the
text by stripping ALL leading and trailing '|' characters, splitting on '|',
and trimming each cell. -/
theorem claim5_amended_cells (text : List Char) :
    ∀ g ∈ extract_tables text, ∀ row ∈ g,
      ∃ line, line ∈ strippedLines text ∧ isCand line = true ∧
        sepMatch line = false ∧ row = cellsAllStrip line := by
  intro g hg row hrow
  rw [extract_tables_eq_runs] at hg
  obtain ⟨run, hrun, hmk⟩ := List.mem_filterMap.mp hg
  rw [mkGrid] at hmk
  split at hmk
  · exact absurd hmk (by simp)
  · have hg' : g = (run.filter (fun r => !sepMatch r)).map cellsOf := by
      injection hmk with h
      exact h.symm
    subst hg'
    obtain ⟨line, hline, hcell⟩ := List.mem_map.mp hrow
    obtain ⟨hlr, hns⟩ := List.mem_filter.mp hline
    refine ⟨line, candidateRuns_sub hrun line hlr,
      (candidateRuns_all_cand hrun).2 line hlr, by simpa using hns, ?_⟩
    rw [← hcell]
    rfl

/-- C5 witness: the single row of `|a|` comes from the line `|a|` by the
strip-all-pipes procedure. -/
theorem claim5_amended_witness :
    ∃ line, line ∈ strippedLines (String.toList "|a|") ∧ isCand line = true ∧
      sepMatch line = false ∧ ([['a']] : Row) = cellsAllStrip line :=
  claim5_amended_cells (String.toList "|a|") [[['a']]] (by
    simp [extract_tables, tablesLoop, collectRun, splitlines, splitlinesGo, isLineBreak, isCand, sepMatch,
      cellsOf, splitOnPipe, stripPy, stripBy, isPyWS, isSepChar, String.toList])
    [['a']] (by simp)

/-! ### Round-trip machinery for C6 -/

/-- Python `sep.join(parts)`. -/
def joinSep (sep : List Char) : List (List Char) → List Char
  | [] => []
  | [x] => x
  | x :: y :: rest => x ++ sep ++ joinSep sep (y :: rest)

/-- The claim's re-joining of a row: `"|" + " | ".join(row) + "|"`. -/
def rejoinRow (row : Row) : List Char :=
  '|' :: (joinSep [' ', '|', ' '] row ++ ['|'])

theorem joinSep_cons_head (sep : List Char) (c : Char) (g : List Char)
    (gs : List (List Char)) :
    joinSep sep ((c :: g) :: gs) = c :: joinSep sep (g :: gs) := by
  cases gs with
  | nil => rfl
  | cons g2 gs' => rfl

theorem joinSep_splitOnPipe : ∀ s : List Char, joinSep ['|'] (splitOnPipe s) = s
  | [] => rfl
  | c :: rest => by
    rw [splitOnPipe]
    split
    case isTrue hc =>
      cases hs : splitOnPipe rest with
      | nil => exact absurd hs (splitOnPipe_ne_nil rest)
      | cons g gs =>
        have ih := joinSep_splitOnPipe rest
        rw [hs] at ih
        have hc' : c = '|' := by simpa using hc
        subst hc'
        rw [joinSep, ih]
        rfl
    case isFalse hc =>
      cases hs : splitOnPipe rest with
      | nil => exact absurd hs (splitOnPipe_ne_nil rest)
      | cons g gs =>
        have ih := joinSep_splitOnPipe rest
        rw [hs] at ih
        rw [joinSep_cons_head, ih]

theorem filter_joinSep (q : Char → Bool) (sep : List Char) :
    ∀ l : List (List Char),
      (joinSep sep l).filter q = joinSep (sep.filter q) (l.map (List.filter q))
  | [] => rfl
  | [x] => rfl
  | x :: y :: rest => by
    rw [joinSep, List.map_cons, List.map_cons, joinSep,
      List.filter_append, List.filter_append]
    have ih := filter_joinSep q sep (y :: rest)
    rw [List.map_cons] at ih
    rw [ih]

theorem filter_dropWhile_subset {q P : Char → Bool} (h : ∀ c, P c = true → q c = false) :
    ∀ l : List Char, (l.dropWhile P).filter q = l.filter q
  | [] => rfl
  | c :: rest => by
    rw [List.dropWhile_cons]
    split
    case isTrue hP =>
      rw [filter_dropWhile_subset h rest, List.filter_cons, if_neg (by simp [h c hP])]
    case isFalse hP => rfl

theorem filter_stripBy {q P : Char → Bool} (h : ∀ c, P c = true → q c = false)
    (s : List Char) : (stripBy P s).filter q = s.filter q := by
  unfold stripBy
  rw [List.filter_reverse, filter_dropWhile_subset h, List.filter_reverse,
    List.reverse_reverse, filter_dropWhile_subset h]

theorem joinSep_filter_split {q : Char → Bool} (hq : q '|' = true) (m : List Char) :
    joinSep ['|'] ((splitOnPipe m).map (List.filter q)) = m.filter q := by
  have h := filter_joinSep q ['|'] (splitOnPipe m)
  rw [joinSep_splitOnPipe] at h
  have hsep : (['|'] : List Char).filter q = ['|'] := by
    rw [List.filter_cons, if_pos hq]
    rfl
  rw [hsep] at h
  exact h.symm

/-- Whitespace-erased form of re-joining a scanned row: all cell content and
interior pipes survive, and the collapsed boundary pipes reappear as single
pipes around the pipe-stripped line. -/
theorem rejoin_cells_norm (line : List Char) :
    (rejoinRow (cellsOf line)).filter (fun c => !isPyWS c) =
      '|' :: ((stripBy (fun c => c == '|') line).filter (fun c => !isPyWS c) ++ ['|']) := by
  unfold rejoinRow cellsOf
  rw [List.filter_cons, if_pos (by decide), List.filter_append, filter_joinSep]
  have hsep : (([' ', '|', ' '] : List Char).filter (fun c => !isPyWS c)) = ['|'] := by decide
  have hbar : ((['|'] : List Char).filter (fun c => !isPyWS c)) = ['|'] := by decide
  rw [hsep, hbar, List.map_map]
  have hmap : (splitOnPipe (stripBy (fun c => c == '|') line)).map
        (List.filter (fun c => !isPyWS c) ∘ stripPy) =
      (splitOnPipe (stripBy (fun c => c == '|') line)).map
        (List.filter (fun c => !isPyWS c)) :=
    List.map_congr_left (fun a _ => filter_stripBy (fun c hc => by simp [hc]) a)
  rw [hmap, joinSep_filter_split (by decide)]

/-- C6 (amended): every row of every grid returned by `extract_tables` comes
from a line of the run that produced the grid; re-joining the row as
`"|" + " | ".join(row) + "|"` matches that line up to whitespace once the
line's leading and trailing pipe-runs are collapsed to a single pipe. -/
theorem claim6_amended_round_trip (text : List Char) :
    ∀ g ∈ extract_tables text,
      ∃ run, run ∈ candidateRuns (strippedLines text) ∧
        ∀ row ∈ g, ∃ line ∈ run,
          (rejoinRow row).filter (fun c => !isPyWS c) =
            '|' :: ((stripBy (fun c => c == '|') line).filter (fun c => !isPyWS c) ++ ['|']) := by
  intro g hg
  rw [extract_tables_eq_runs] at hg
  obtain ⟨run, hrun, hmk⟩ := List.mem_filterMap.mp hg
  refine ⟨run, hrun, ?_⟩
  rw [mkGrid] at hmk
  split at hmk
  · exact absurd hmk (by simp)
  · have hg' : g = (run.filter (fun r => !sepMatch r)).map cellsOf := by
      injection hmk with h
      exact h.symm
    subst hg'
    intro row hrow
    obtain ⟨line, hline, hcell⟩ := List.mem_map.mp hrow
    exact ⟨line, (List.mem_filter.mp hline).1, hcell ▸ rejoin_cells_norm line⟩

/-- C6 witness: the row of `| a |` re-joins, modulo whitespace, to its line. -/
theorem claim6_amended_witness :
    ∃ run, run ∈ candidateRuns (strippedLines (String.toList "| a |")) ∧
      ∀ row ∈ ([[['a']]] : TableGrid), ∃ line ∈ run,
        (rejoinRow row).filter (fun c => !isPyWS c) =
          '|' :: ((stripBy (fun c => c == '|') line).filter (fun c => !isPyWS c) ++ ['|']) :=
  claim6_amended_round_trip (String.toList "| a |") [[['a']]] (by
    simp [extract_tables, tablesLoop, collectRun, splitlines, splitlinesGo, isLineBreak, isCand, sepMatch,
      cellsOf, splitOnPipe, stripPy, stripBy, isPyWS, isSepChar, String.toList])

/-- C6 counterexample: in `||a||` the extracted row is `["a"]`, which
re-joins to `|a|`; modulo whitespace alone this matches no line of the text
(the only line is `||a||`), refuting the claim as stated. -/
theorem claim6_counterexample :
    extract_tables (String.toList "||a||") = [[[['a']]]] ∧
    (∀ line ∈ strippedLines (String.toList "||a||"),
      ¬ (rejoinRow [['a']]).filter (fun c => !isPyWS c) =
        line.filter (fun c => !isPyWS c)) := by
  constructor
  · simp [extract_tables, tablesLoop, collectRun, splitlines, splitlinesGo, isLineBreak, isCand, sepMatch,
      cellsOf, splitOnPipe, stripPy, stripBy, isPyWS, isSepChar, String.toList]
  · decide

/-! ### Joining physical lines back into a document (for C7) -/

/-- Join lines with single newlines (no trailing newline). -/
def joinLines : List (List Char) → List Char
  | [] => []
  | [l] => l
  | l :: m :: rest => l ++ '\n' :: joinLines (m :: rest)

theorem getLast?_mem {α : Type} {l : List α} {a : α} (h : l.getLast? = some a) : a ∈ l := by
  cases l with
  | nil => simp at h
  | cons x xs =>
    have h2 := List.getLast?_eq_getLast (x :: xs) (by simp)
    rw [h2] at h
    injection h with h3
    exact h3 ▸ List.getLast_mem (by simp)

theorem joinLines_ne_nil :
    ∀ {ls : List (List Char)}, ls ≠ [] → (∀ l, ls.getLast? = some l → l ≠ []) →
      joinLines ls ≠ []
  | [], h, _ => absurd rfl h
  | [l], _, hlast => by
    have := hlast l (List.getLast?_singleton l)
    simpa [joinLines] using this
  | l :: m :: rest, _, _ => by
    rw [joinLines]
    simp

theorem splitlinesGo_cons_ne (acc : List Char) {c : Char} (rest : List Char)
    (h : isLineBreak c = false) :
    splitlinesGo acc (c :: rest) = splitlinesGo (c :: acc) rest := by
  have hr : (c == '\r') = false := by
    cases hb : c == '\r' with
    | false => rfl
    | true =>
      have hce : c = '\r' := by simpa using hb
      subst hce
      simp [isLineBreak] at h
  cases rest with
  | nil =>
    rw [splitlinesGo, splitlinesGo, if_neg (by simp [h])]
  | cons c2 rs =>
    rw [splitlinesGo, if_neg (by simp [hr]), if_neg (by simp [h])]

theorem splitlinesGo_noBreak :
    ∀ (acc l : List Char), (∀ c ∈ l, isLineBreak c = false) →
      splitlinesGo acc l = [acc.reverse ++ l]
  | acc, [], _ => by simp [splitlinesGo]
  | acc, c :: rest, h => by
    rw [splitlinesGo_cons_ne acc rest (h c (List.mem_cons_self c rest)),
      splitlinesGo_noBreak (c :: acc) rest (fun x hx => h x (List.mem_cons_of_mem c hx))]
    simp

theorem splitlinesGo_line_append :
    ∀ (acc l : List Char), (∀ c ∈ l, isLineBreak c = false) →
      ∀ {R : List Char}, R ≠ [] →
      splitlinesGo acc (l ++ '\n' :: R) = (acc.reverse ++ l) :: splitlinesGo [] R
  | acc, [], _, R, hR => by
    cases R with
    | nil => exact absurd rfl hR
    | cons r rs =>
      rw [List.nil_append, splitlinesGo,
        if_neg (by simp [(show (('\n' : Char) == '\r') = false from rfl)]),
        if_pos (show isLineBreak '\n' = true from rfl)]
      simp
  | acc, c :: t, h, R, hR => by
    rw [List.cons_append,
      splitlinesGo_cons_ne acc _ (h c (List.mem_cons_self c t)),
      splitlinesGo_line_append (c :: acc) t (fun x hx => h x (List.mem_cons_of_mem c hx)) hR]
    simp

theorem splitlines_cons (x : Char) (xs : List Char) :
    splitlines (x :: xs) = splitlinesGo [] (x :: xs) := by
  rw [splitlines]

theorem splitlines_joinLines :
    ∀ {ls : List (List Char)}, ls ≠ [] →
      (∀ l ∈ ls, ∀ c ∈ l, isLineBreak c = false) →
      (∀ l, ls.getLast? = some l → l ≠ []) →
      splitlines (joinLines ls) = ls
  | [], h, _, _ => absurd rfl h
  | [l], _, hnb, hlast => by
    have hl : l ≠ [] := hlast l (List.getLast?_singleton l)
    have hj : joinLines [l] = l := rfl
    rw [hj]
    cases hl' : l with
    | nil => exact absurd hl' hl
    | cons c cs =>
      rw [splitlines_cons, splitlinesGo_noBreak [] (c :: cs)
        (fun x hx => hnb l (List.mem_cons_self l []) x (hl' ▸ hx))]
      simp
  | l :: m :: rest, _, hnb, hlast => by
    have hR : joinLines (m :: rest) ≠ [] :=
      joinLines_ne_nil (by simp)
        (fun x hx => hlast x (by rw [List.getLast?_cons_cons]; exact hx))
    have hj : joinLines (l :: m :: rest) = l ++ '\n' :: joinLines (m :: rest) := rfl
    rw [hj]
    have hsl : splitlines (l ++ '\n' :: joinLines (m :: rest)) =
        splitlinesGo [] (l ++ '\n' :: joinLines (m :: rest)) := by
      cases hll : l with
      | nil => rw [List.nil_append]; exact splitlines_cons _ _
      | cons c cs => rw [List.cons_append]; exact splitlines_cons _ _
    rw [hsl, splitlinesGo_line_append [] l
      (fun x hx => hnb l (List.mem_cons_self l (m :: rest)) x hx) hR]
    simp only [List.reverse_nil, List.nil_append]
    congr 1
    have ih := splitlines_joinLines (show m :: rest ≠ [] by simp)
      (fun x hx => hnb x (List.mem_cons_of_mem l hx))
      (fun x hx => hlast x (by rw [List.getLast?_cons_cons]; exact hx))
    cases hJ : joinLines (m :: rest) with
    | nil => exact absurd hJ hR
    | cons x xs =>
      rw [hJ, splitlines_cons] at ih
      exact ih

theorem strippedLines_joinLines {ls : List (List Char)} (hne : ls ≠ [])
    (hnb : ∀ l ∈ ls, ∀ c ∈ l, isLineBreak c = false)
    (hlast : ∀ l, ls.getLast? = some l → l ≠ []) :
    strippedLines (joinLines ls) = ls.map stripPy := by
  rw [strippedLines, splitlines_joinLines hne hnb hlast]

theorem ne_nil_of_isCand_strip {l : List Char} (h : isCand (stripPy l) = true) : l ≠ [] := by
  intro he
  subst he
  exact absurd h (by decide)

theorem mkGrid_isSome_of_survivor {run : List (List Char)} {r : List Char}
    (hr : r ∈ run) (hs : sepMatch r = false) :
    mkGrid run = some ((run.filter (fun x => !sepMatch x)).map cellsOf) := by
  have hm : r ∈ run.filter (fun x => !sepMatch x) :=
    List.mem_filter.mpr ⟨hr, by simp [hs]⟩
  have hfne : run.filter (fun x => !sepMatch x) ≠ [] := List.ne_nil_of_mem hm
  rw [mkGrid]
  cases hml : run.filter (fun x => !sepMatch x) with
  | nil => exact absurd hml hfne
  | cons y ys => simp

/-- C7: `extract_tables` yields one table attempt per maximal consecutive run
of candidate lines (each run nonempty, all of its lines candidates, all drawn
from the document's stripped lines), and splicing a blank or otherwise
non-candidate line between two all-candidate line blocks splits the output
into the concatenation of the two blocks' outputs — in particular two runs
separated by a blank line that each contain a non-separator line yield exactly
two distinct grids, never a merged one. -/
theorem claim7_maximal_runs :
    (∀ text : List Char,
      extract_tables text = (candidateRuns (strippedLines text)).filterMap mkGrid ∧
      ∀ run ∈ candidateRuns (strippedLines text),
        run ≠ [] ∧ (∀ l ∈ run, isCand l = true) ∧ ∀ l ∈ run, l ∈ strippedLines text) ∧
    (∀ (A B : List (List Char)) (b : List Char), A ≠ [] → B ≠ [] →
      (∀ l ∈ A ++ B, (∀ c ∈ l, isLineBreak c = false) ∧ isCand (stripPy l) = true) →
      (∀ c ∈ b, isLineBreak c = false) → isCand (stripPy b) = false →
      extract_tables (joinLines (A ++ b :: B)) =
        extract_tables (joinLines A) ++ extract_tables (joinLines B) ∧
      ((∃ l ∈ A, sepMatch (stripPy l) = false) → (∃ l ∈ B, sepMatch (stripPy l) = false) →
        (extract_tables (joinLines (A ++ b :: B))).length = 2)) := by
  constructor
  · intro text
    refine ⟨extract_tables_eq_runs text, ?_⟩
    intro run hrun
    obtain ⟨h1, h2⟩ := candidateRuns_all_cand hrun
    exact ⟨h1, h2, candidateRuns_sub hrun⟩
  · intro A B b hA hB hAB hbnb hbcand
    have hnbA : ∀ l ∈ A, ∀ c ∈ l, isLineBreak c = false :=
      fun l hl => (hAB l (List.mem_append.mpr (Or.inl hl))).1
    have hnbB : ∀ l ∈ B, ∀ c ∈ l, isLineBreak c = false :=
      fun l hl => (hAB l (List.mem_append.mpr (Or.inr hl))).1
    have hcandA : ∀ l ∈ A, isCand (stripPy l) = true :=
      fun l hl => (hAB l (List.mem_append.mpr (Or.inl hl))).2
    have hcandB : ∀ l ∈ B, isCand (stripPy l) = true :=
      fun l hl => (hAB l (List.mem_append.mpr (Or.inr hl))).2
    have hnbAB : ∀ l ∈ A ++ b :: B, ∀ c ∈ l, isLineBreak c = false := by
      intro l hl
      rcases List.mem_append.mp hl with h | h
      · exact hnbA l h
      · rcases List.mem_cons.mp h with h | h
        · exact h ▸ hbnb
        · exact hnbB l h
    have hlastA : ∀ l, A.getLast? = some l → l ≠ [] :=
      fun l hl => ne_nil_of_isCand_strip (hcandA l (getLast?_mem hl))
    have hlastB : ∀ l, B.getLast? = some l → l ≠ [] :=
      fun l hl => ne_nil_of_isCand_strip (hcandB l (getLast?_mem hl))
    have hlastAB : ∀ l, (A ++ b :: B).getLast? = some l → l ≠ [] := by
      intro l hl
      have h1 : (A ++ b :: B).getLast? = (b :: B).getLast? := by
        rw [List.getLast?_append]
        rw [List.getLast?_eq_getLast (b :: B) (by simp)]
        rfl
      rw [h1] at hl
      cases B with
      | nil => exact absurd rfl hB
      | cons y ys =>
        rw [List.getLast?_cons_cons] at hl
        exact hlastB l hl
    have hsA : strippedLines (joinLines A) = A.map stripPy :=
      strippedLines_joinLines hA hnbA hlastA
    have hsB : strippedLines (joinLines B) = B.map stripPy :=
      strippedLines_joinLines hB hnbB hlastB
    have hsAB : strippedLines (joinLines (A ++ b :: B)) =
        A.map stripPy ++ stripPy b :: B.map stripPy := by
      rw [strippedLines_joinLines (by simp) hnbAB hlastAB]
      simp
    have hmain : extract_tables (joinLines (A ++ b :: B)) =
        extract_tables (joinLines A) ++ extract_tables (joinLines B) := by
      rw [extract_tables_eq_runs (joinLines (A ++ b :: B)),
        extract_tables_eq_runs (joinLines A), extract_tables_eq_runs (joinLines B),
        hsA, hsB, hsAB, candidateRuns_append_break hbcand, List.filterMap_append]
    refine ⟨hmain, ?_⟩
    rintro ⟨la, hla, hsla⟩ ⟨lb, hlb, hslb⟩
    have hrunsA : candidateRuns (A.map stripPy) = [A.map stripPy] :=
      candidateRuns_of_all (by simpa using hA) (by
        intro x hx
        obtain ⟨l, hl, hlx⟩ := List.mem_map.mp hx
        exact hlx ▸ hcandA l hl)
    have hrunsB : candidateRuns (B.map stripPy) = [B.map stripPy] :=
      candidateRuns_of_all (by simpa using hB) (by
        intro x hx
        obtain ⟨l, hl, hlx⟩ := List.mem_map.mp hx
        exact hlx ▸ hcandB l hl)
    have hgA := mkGrid_isSome_of_survivor (List.mem_map.mpr ⟨la, hla, rfl⟩) hsla
    have hgB := mkGrid_isSome_of_survivor (List.mem_map.mpr ⟨lb, hlb, rfl⟩) hslb
    rw [hmain, List.length_append, extract_tables_eq_runs (joinLines A),
      extract_tables_eq_runs (joinLines B), hsA, hsB, hrunsA, hrunsB]
    simp [List.filterMap_cons, hgA, hgB]

/-- Witness for C7 at the document joining lines "|a|", "", "|b|": the blank
line splits the scan into two separate single-line runs, each yielding its own
grid, for exactly two grids in total. -/
theorem claim7_witness :
    extract_tables (joinLines ([['|', 'a', '|']] ++ [] :: [['|', 'b', '|']])) =
      extract_tables (joinLines [['|', 'a', '|']]) ++
        extract_tables (joinLines [['|', 'b', '|']]) ∧
    (extract_tables (joinLines ([['|', 'a', '|']] ++ [] :: [['|', 'b', '|']]))).length
      = 2 := by
  have h := claim7_maximal_runs.2 [['|', 'a', '|']] [['|', 'b', '|']] []
    (by decide) (by decide) (by decide) (by decide) (by decide)
  exact ⟨h.1, h.2 ⟨['|', 'a', '|'], by decide, by decide⟩
    ⟨['|', 'b', '|'], by decide, by decide⟩⟩

/-! ### Instrumented (exception-tracking) scanners, for the never-raise claim -/

/-- Python list indexing `l[i]` as a fallible operation: out-of-range access
raises instead of defaulting. -/
def getChecked {α : Type} (l : List α) (i : Nat) : Except String α :=
  if h : i < l.length then .ok l[i] else .error "IndexError"

/-- The binary-search loop of `offset_to_line` with every `line_starts[mid]`
access instrumented: an out-of-range `mid` would surface as an error. -/
def offsetToLineLoopChecked (ls : List Nat) (offset lo hi : Nat) : Except String Nat :=
  if lo < hi then
    match getChecked ls ((lo + hi + 1) / 2) with
    | .error e => .error e
    | .ok v =>
      if v ≤ offset then offsetToLineLoopChecked ls offset ((lo + hi + 1) / 2) hi
      else offsetToLineLoopChecked ls offset lo ((lo + hi + 1) / 2 - 1)
  else .ok lo
termination_by hi - lo
decreasing_by
  · omega
  · omega

theorem offsetToLineLoopChecked_ok (ls : List Nat) (offset : Nat) :
    ∀ lo hi, hi < ls.length →
      offsetToLineLoopChecked ls offset lo hi =
        Except.ok (offsetToLineLoop ls offset lo hi) := by
  have H : ∀ d lo hi, hi - lo ≤ d → hi < ls.length →
      offsetToLineLoopChecked ls offset lo hi =
        Except.ok (offsetToLineLoop ls offset lo hi) := by
    intro d
    induction d with
    | zero =>
      intro lo hi hd hlt
      rw [offsetToLineLoopChecked, offsetToLineLoop]
      have hnlt : ¬ lo < hi := by omega
      rw [if_neg hnlt, if_neg hnlt]
    | succ d ih =>
      intro lo hi hd hlt
      rw [offsetToLineLoopChecked, offsetToLineLoop]
      by_cases hlh : lo < hi
      · rw [if_pos hlh, if_pos hlh]
        have hmid : (lo + hi + 1) / 2 < ls.length := by omega
        have hg : getChecked ls ((lo + hi + 1) / 2) =
            Except.ok (ls[(lo + hi + 1) / 2]) := by
          unfold getChecked
          rw [dif_pos hmid]
        have hgd : ls.getD ((lo + hi + 1) / 2) 0 = ls[(lo + hi + 1) / 2] :=
          List.getD_eq_getElem ls 0 hmid
        simp only [hg, hgd]
        by_cases hle : ls[(lo + hi + 1) / 2] ≤ offset
        · rw [if_pos hle, if_pos hle]
          exact ih ((lo + hi + 1) / 2) hi (by omega) hlt
        · rw [if_neg hle, if_neg hle]
          exact ih lo ((lo + hi + 1) / 2 - 1) (by omega) (by omega)
      · rw [if_neg hlh, if_neg hlh]
  intro lo hi hlt
  exact H (hi - lo) lo hi (le_refl _) hlt

/-- `offset_to_line` with instrumented indexing. -/
def offset_to_line_checked (ls : List Nat) (offset : Nat) : Except String Nat :=
  match offsetToLineLoopChecked ls offset 0 (ls.length - 1) with
  | .error e => .error e
  | .ok lo => .ok (lo + 1)

theorem offset_to_line_checked_ok {ls : List Nat} (hne : ls ≠ []) (offset : Nat) :
    offset_to_line_checked ls offset = Except.ok (offset_to_line ls offset) := by
  unfold offset_to_line_checked offset_to_line
  have hlt : ls.length - 1 < ls.length := by
    cases ls with
    | nil => exact absurd rfl hne
    | cons a as => simp
  simp only [offsetToLineLoopChecked_ok ls offset 0 (ls.length - 1) hlt]

/-- `List.map` in the exception monad: the first error aborts the traversal. -/
def mapExcept {α β : Type} (f : α → Except String β) : List α → Except String (List β)
  | [] => .ok []
  | a :: as =>
    match f a with
    | .error e => .error e
    | .ok b =>
      match mapExcept f as with
      | .error e => .error e
      | .ok bs => .ok (b :: bs)

theorem mapExcept_ok {α β : Type} {f : α → Except String β} {g : α → β}
    (hfg : ∀ a, f a = Except.ok (g a)) : ∀ l, mapExcept f l = Except.ok (l.map g)
  | [] => rfl
  | a :: as => by
    simp only [mapExcept, hfg a, mapExcept_ok hfg as, List.map_cons]

/-- `extract_code_blocks` with instrumented line-number resolution: any
out-of-range access inside the binary search would surface as an error. -/
def extract_code_blocks_checked (md_text : List Char) : Except String (List CodeBlock) :=
  mapExcept (fun m =>
    match offset_to_line_checked (line_starts md_text) m.pos with
    | .error e => .error e
    | .ok n =>
      .ok { language := stripPy m.lang
            filenameHint := match m.hint with | some h => stripPy h | none => []
            body := m.body
            lineNumber := n }) (findMatchesAux md_text 0)

theorem extract_code_blocks_checked_ok (md_text : List Char) :
    extract_code_blocks_checked md_text = Except.ok (extract_code_blocks md_text) := by
  unfold extract_code_blocks_checked extract_code_blocks
  refine mapExcept_ok ?_ _
  intro m
  simp only [offset_to_line_checked_ok (show line_starts md_text ≠ [] by simp [line_starts])
    m.pos]

/-- The inner run-collecting loop of `extract_tables` with every `lines[i]`
access instrumented. -/
def collectRunChecked (lines : List (List Char)) (i : Nat) :
    Except String (List (List Char) × Nat) :=
  if h : i < lines.length then
    match getChecked lines i with
    | .error e => .error e
    | .ok li =>
      if isCand (stripPy li) then
        match collectRunChecked lines (i + 1) with
        | .error e => .error e
        | .ok rj => .ok (stripPy li :: rj.1, rj.2)
      else .ok ([], i)
  else .ok ([], i)
termination_by lines.length - i
decreasing_by omega

theorem collectRunChecked_ok (lines : List (List Char)) (i : Nat) :
    collectRunChecked lines i = Except.ok (collectRun lines i) := by
  rw [collectRunChecked, collectRun]
  split
  case isTrue h =>
    have hg : getChecked lines i = Except.ok lines[i] := by
      unfold getChecked
      rw [dif_pos h]
    simp only [hg]
    split
    case isTrue hc =>
      simp only [collectRunChecked_ok lines (i + 1)]
    case isFalse hc => rfl
  case isFalse h => rfl
termination_by lines.length - i
decreasing_by omega

/-- The outer loop of `extract_tables` with every `lines[i]` access
instrumented. -/
def tablesLoopChecked (lines : List (List Char)) (i : Nat) : Except String (List TableGrid) :=
  if h : i < lines.length then
    match hg : getChecked lines i with
    | .error e => .error e
    | .ok li =>
      if hc : isCand (stripPy li) then
        match hcr : collectRunChecked lines i with
        | .error e => .error e
        | .ok rj =>
          match tablesLoopChecked lines rj.2 with
          | .error e => .error e
          | .ok rest =>
            if ((rj.1.filter (fun r => !sepMatch r)).map cellsOf).isEmpty then .ok rest
            else .ok (((rj.1.filter (fun r => !sepMatch r)).map cellsOf) :: rest)
      else tablesLoopChecked lines (i + 1)
  else .ok []
termination_by lines.length - i
decreasing_by
  · have h1 := collectRunChecked_ok lines i
    rw [hcr] at h1
    injection h1 with h2
    have hg2 : getChecked lines i = Except.ok lines[i] := by
      unfold getChecked
      rw [dif_pos h]
    rw [hg2] at hg
    injection hg with hg3
    have h4 := collectRun_snd_gt lines i h (hg3 ▸ hc)
    rw [h2]
    omega
  · omega

theorem tablesLoopChecked_ok (lines : List (List Char)) (i : Nat) :
    tablesLoopChecked lines i = Except.ok (tablesLoop lines i) := by
  rw [tablesLoopChecked, tablesLoop]
  split
  case isTrue h =>
    have hg2 : getChecked lines i = Except.ok lines[i] := by
      unfold getChecked
      rw [dif_pos h]
    split
    case h_1 e heq =>
      rw [hg2] at heq
      cases heq
    case h_2 li heq =>
      rw [hg2] at heq
      injection heq with heq2
      subst heq2
      split
      case isTrue hc =>
        split
        case h_1 e heq3 =>
          rw [collectRunChecked_ok lines i] at heq3
          cases heq3
        case h_2 rj heq3 =>
          rw [collectRunChecked_ok lines i] at heq3
          injection heq3 with heq4
          subst heq4
          simp only [tablesLoopChecked_ok lines (collectRun lines i).2]
          split
          case isTrue hemp => rfl
          case isFalse hemp => rfl
      case isFalse hc =>
        exact tablesLoopChecked_ok lines (i + 1)
  case isFalse h => rfl
termination_by lines.length - i
decreasing_by
  all_goals
    first
    | omega
    | (have h1 : i < lines.length := by assumption
       have h2 : isCand (stripPy lines[i]) = true := by assumption
       have h3 := collectRun_snd_gt lines i h1 h2
       omega)

/-- `extract_tables` with instrumented indexing. -/
def extract_tables_checked (md_text : List Char) : Except String (List TableGrid) :=
  tablesLoopChecked (splitlines md_text) 0

theorem extract_tables_checked_ok (md_text : List Char) :
    extract_tables_checked md_text = Except.ok (extract_tables md_text) :=
  tablesLoopChecked_ok (splitlines md_text) 0

/-- C9: both scanners return normally on every input, well-formed or not: the
instrumented variants, in which every fallible list indexing returns an error
instead of silently defaulting, always return `Except.ok` of the pure results,
so no input ever makes either scanner raise. -/
theorem claim9_never_raises (md_text : List Char) :
    extract_code_blocks_checked md_text = Except.ok (extract_code_blocks md_text) ∧
    extract_tables_checked md_text = Except.ok (extract_tables md_text) :=
  ⟨extract_code_blocks_checked_ok md_text, extract_tables_checked_ok md_text⟩

-- END
